import Mathlib

/-!
Shallow embedding of the BM_LEM clearing/settlement engine
(src/BM_LEM/pricing_UP.py and the two-step residual mechanisms) over ℚ.

Conventions of the embedding:
* a pandas DataFrame of bids becomes a `List Bid`, the DataFrame index
  becoming the `idx` field; floats become exact rationals;
* `pymarket.TransactionManager` becomes an append-only `List Txn`;
* Python `round(x, 4)` is modelled as rounding `x * 10000` to the nearest
  integer (Mathlib's `round`, half-up; Python uses half-to-even on binary
  floats, which agrees except on exact half-way ties, which none of the
  theorems below touch);
* a `while True:` loop is modelled with an explicit fuel argument, the
  function returning `none` when the fuel runs out;
* `pandas.Series.mean` of an empty series is NaN in the source; the
  embedding returns 0 there (division by a zero length), and every theorem
  that touches a mean stays inside the guard that makes the side nonempty.
-/

set_option linter.unusedVariables false

namespace BMLEM

/-- One row of the bid DataFrame: index, `buying` flag, quantity, price. -/
structure Bid where
  idx : ℕ
  buying : Bool
  quantity : ℚ
  price : ℚ
deriving DecidableEq

/-- One row of the transaction ledger, the argument order of
`TransactionManager.add_transaction(bid, quantity, price, source, active)`. -/
structure Txn where
  bid : ℕ
  quantity : ℚ
  price : ℚ
  source : ℤ
  active : Bool
deriving DecidableEq

/-- Sum of the `quantity` column. -/
def sumQ (l : List Bid) : ℚ := (l.map Bid.quantity).sum

/-- The buy side: `bids[bids['buying']]`. -/
def buyersOf (bids : List Bid) : List Bid := bids.filter (fun b => b.buying)

/-- The sell side: `bids[~bids['buying']]`. -/
def sellersOf (bids : List Bid) : List Bid := bids.filter (fun b => !b.buying)

/-- `sort_values('price', ascending=True)` (stable sort on the price column). -/
def sortPriceAsc (l : List Bid) : List Bid :=
  l.insertionSort (fun a b => a.price ≤ b.price)

/-- `sort_values('price', ascending=False)`. -/
def sortPriceDesc (l : List Bid) : List Bid :=
  l.insertionSort (fun a b => b.price ≤ a.price)

/-- `series.mean()`: sum divided by length (0 for the empty series, where
pandas yields NaN; used only under nonemptiness guards). -/
def listMean (l : List ℚ) : ℚ := l.sum / l.length

/-- Python `round(x, 4)`. -/
def round4 (x : ℚ) : ℚ := (round (x * 10000) : ℚ) / 10000

/-- `sorted(set(prices))`: the sorted deduplicated list of all bid prices
(buy-side and sell-side prices together, as in
`set(buyers['price']).union(sellers['price'])`). -/
def candidatePrices (bids : List Bid) : List ℚ :=
  ((bids.map Bid.price).dedup).insertionSort (· ≤ ·)

/-- `demand_qty` at candidate `p`: total buy quantity at price ≥ p. -/
def demandAt (bids : List Bid) (p : ℚ) : ℚ :=
  (((buyersOf bids).filter (fun b => decide (p ≤ b.price))).map Bid.quantity).sum

/-- `supply_qty` at candidate `p`: total sell quantity at price ≤ p. -/
def supplyAt (bids : List Bid) (p : ℚ) : ℚ :=
  (((sellersOf bids).filter (fun b => decide (b.price ≤ p))).map Bid.quantity).sum

/-- `traded_qty` at candidate `p`. -/
def tradedAt (bids : List Bid) (p : ℚ) : ℚ :=
  min (demandAt bids p) (supplyAt bids p)

/-- The candidate scan of `find_clearing_price_and_quantity`: fold over the
candidates keeping `(best_quantity, best_price)`, updating only on a strict
improvement. -/
def scanBest (t : ℚ → ℚ) (cs : List ℚ) (acc : ℚ × Option ℚ) : ℚ × Option ℚ :=
  cs.foldl (fun best p => if best.1 < t p then (t p, some p) else best) acc

/-- `find_clearing_price_and_quantity(bids)` — returns
`(best_quantity, best_price)`, or `none` for the `(None, None)` returns. -/
def find_clearing_price_and_quantity (bids : List Bid) : Option (ℚ × ℚ) :=
  let buyers := buyersOf bids
  let sellers := sellersOf bids
  if buyers.isEmpty || sellers.isEmpty then none
  else
    let best := scanBest (tradedAt bids) (candidatePrices bids) (0, none)
    if best.1 = 0 then none
    else match best.2 with
      | none => none
      | some p => some (best.1, p)

/-- One side's execution loop of `uniform_price_mechanism`:
`q = min(row['quantity'], qty_left); if q <= 0: continue;
add_transaction(i, q, price, -1, False); qty_left -= q;
if qty_left <= 0: break`. -/
def upAlloc (price : ℚ) : List Bid → ℚ → List Txn
  | [], _ => []
  | b :: rest, left =>
    let q := min b.quantity left
    if q ≤ 0 then upAlloc price rest left
    else
      if left - q ≤ 0 then [⟨b.idx, q, price, -1, false⟩]
      else ⟨b.idx, q, price, -1, false⟩ :: upAlloc price rest (left - q)

/-- The buy side willing to trade at the clearing price, sorted as executed:
`bids[(bids['buying']) & (bids['price'] >= clearing_price)]`, descending. -/
def upBuyersAt (bids : List Bid) (cp : ℚ) : List Bid :=
  sortPriceDesc (bids.filter (fun b => b.buying && decide (cp ≤ b.price)))

/-- The sell side willing to trade at the clearing price, ascending. -/
def upSellersAt (bids : List Bid) (cp : ℚ) : List Bid :=
  sortPriceAsc (bids.filter (fun b => !b.buying && decide (b.price ≤ cp)))

/-- Result dictionary of `uniform_price_mechanism`:
`{'clearing quantity': q, 'clearing price': p}` with `p = None` modelled as
`none`. -/
structure UPSummary where
  quantity : ℚ
  price : Option ℚ
deriving DecidableEq

/-- `uniform_price_mechanism(bids)`: clears at the found price, executing the
seller loop first and the buyer loop second, both capped at
`min(buyers.quantity.sum(), sellers.quantity.sum())` over the filtered sides. -/
def uniform_price_mechanism (bids : List Bid) : List Txn × UPSummary :=
  match find_clearing_price_and_quantity bids with
  | none => ([], ⟨0, none⟩)
  | some (_, cp) =>
    let buyers := upBuyersAt bids cp
    let sellers := upSellersAt bids cp
    let traded := min (sumQ buyers) (sumQ sellers)
    (upAlloc cp sellers traded ++ upAlloc cp buyers traded,
     ⟨round4 traded, some (round4 cp)⟩)

/-- `bids_uncovered.loc[bids_uncovered.index == i, 'quantity'] -= q`. -/
def decrementBid (l : List Bid) (i : ℕ) (q : ℚ) : List Bid :=
  l.map (fun b => if b.idx = i then { b with quantity := b.quantity - q } else b)

/-- `bids_uncovered.at[i, 'quantity']`: the first row with index `i`
(0 when the index is absent, which the source would raise on; unreachable in
the theorems below). -/
def qtyAt : List Bid → ℕ → ℚ
  | [], _ => 0
  | b :: rest, i => if b.idx = i then b.quantity else qtyAt rest i

/-- The short-side loop shared by APM/CFRM/WAM/MMP/MPAS/IPA:
`for i, x in short_side.iterrows(): if traded_quantity <= 0: break;
trade_qty = min(x.quantity, traded_quantity); add_transaction(...);
bids_uncovered[...] -= trade_qty; traded_quantity -= trade_qty`.
The transaction price may depend on the row (`priceOf`), as in APM.
State: (uncovered frame, ledger, remaining `traded_quantity`). -/
def allocShort (priceOf : Bid → ℚ) :
    List Bid → List Bid × List Txn × ℚ → List Bid × List Txn × ℚ
  | [], st => st
  | x :: rest, (unc, tr, traded) =>
    if traded ≤ 0 then (unc, tr, traded)
    else
      let q := min x.quantity traded
      allocShort priceOf rest
        (decrementBid unc x.idx q, tr ++ [⟨x.idx, q, priceOf x, -1, false⟩], traded - q)

/-- The long-side loop shared by the same mechanisms:
`quantity_added = 0; for i, x in long_side.iterrows():
if traded_quantity <= 0: break;
x_quantity = min(x.quantity, traded_quantity - quantity_added); ...`.
`traded` here is the value of `traded_quantity` left by the short-side loop
(the source reuses the same variable). State: (frame, ledger, `quantity_added`). -/
def allocLong (priceOf : Bid → ℚ) (traded : ℚ) :
    List Bid → List Bid × List Txn × ℚ → List Bid × List Txn × ℚ
  | [], st => st
  | x :: rest, (unc, tr, added) =>
    if traded ≤ 0 then (unc, tr, added)
    else
      let q := min x.quantity (traded - added)
      allocLong priceOf traded rest
        (decrementBid unc x.idx q, tr ++ [⟨x.idx, q, priceOf x, -1, false⟩], added + q)

/-- Long/short classification shared by the residual mechanisms:
`if buying_quantity > selling_quantity: long, short = buying, selling
else: long, short = selling, buying`. -/
def longShort (buying selling : List Bid) : List Bid × List Bid :=
  if sumQ selling < sumQ buying then (buying, selling) else (selling, buying)

/-- The CFRM price: `(buying_bids.price.mean() + selling_bids.price.mean()) / 2`
over the uncovered bids.  No clipping to any [floor, ceiling] appears in the
source (`FIT`/`TOU` are popped and never used). -/
def cfrmMidpointPrice (bids_uncovered : List Bid) : ℚ :=
  (listMean ((sortPriceDesc (buyersOf bids_uncovered)).map Bid.price)
    + listMean ((sortPriceAsc (sellersOf bids_uncovered)).map Bid.price)) / 2

/-- `cap_and_floor_range_midpoint(bids_uncovered, trans)`: short-side loop then
long-side loop, all transactions at the unclipped midpoint price; returns the
mutated uncovered frame and the midpoint price. -/
def cap_and_floor_range_midpoint (bids_uncovered : List Bid) (trans : List Txn) :
    List Bid × List Txn × ℚ :=
  let buying_bids := sortPriceDesc (buyersOf bids_uncovered)
  let selling_bids := sortPriceAsc (sellersOf bids_uncovered)
  let long_side := (longShort buying_bids selling_bids).1
  let short_side := (longShort buying_bids selling_bids).2
  let traded_quantity := sumQ short_side
  let midpoint_price := cfrmMidpointPrice bids_uncovered
  let st1 :=
    allocShort (fun _ => midpoint_price) short_side (bids_uncovered, trans, traded_quantity)
  let st2 := allocLong (fun _ => midpoint_price) st1.2.2 long_side (st1.1, st1.2.1, 0)
  (st2.1, st2.2.1, midpoint_price)

/-- Head price of a sorted side (`side.iloc[0].price`; 0 for the empty frame,
where the source would raise; used only under nonemptiness guards). -/
def headPrice (l : List Bid) : ℚ :=
  match l with
  | [] => 0
  | b :: _ => b.price

/-- `average_price_method(bids_uncovered, trans)`: per-row price
`(x.price + other_side.iloc[0].price) / 2`, same loop pair as CFRM. -/
def average_price_method (bids_uncovered : List Bid) (trans : List Txn) :
    List Bid × List Txn :=
  let buying_bids := sortPriceDesc (buyersOf bids_uncovered)
  let selling_bids := sortPriceAsc (sellersOf bids_uncovered)
  let long_side := (longShort buying_bids selling_bids).1
  let short_side := (longShort buying_bids selling_bids).2
  let traded_quantity := sumQ short_side
  let st1 :=
    allocShort (fun x => (x.price + headPrice long_side) / 2) short_side
      (bids_uncovered, trans, traded_quantity)
  let st2 :=
    allocLong (fun x => (x.price + headPrice short_side) / 2) st1.2.2 long_side
      (st1.1, st1.2.1, 0)
  (st2.1, st2.2.1)

/-- `series.max()` of a price list (0 for empty, where pandas yields NaN;
used only under nonemptiness guards). -/
def listMax : List ℚ → ℚ
  | [] => 0
  | x :: xs => xs.foldl max x

/-- `series.min()` of a price list (0 for empty). -/
def listMin : List ℚ → ℚ
  | [] => 0
  | x :: xs => xs.foldl min x

/-- The MPAS price: `(buy_price_max + sell_price_min) / 2 + alpha * spread`
with `spread = buy_price_max - sell_price_min`, over the uncovered bids.
No clipping appears in the source. -/
def mpasAdjustedPrice (bids_uncovered : List Bid) (alpha : ℚ) : ℚ :=
  let buy_price_max := listMax ((buyersOf bids_uncovered).map Bid.price)
  let sell_price_min := listMin ((sellersOf bids_uncovered).map Bid.price)
  (buy_price_max + sell_price_min) / 2 + alpha * (buy_price_max - sell_price_min)

/-- `marginal_price_adjusted_by_spread(bids_uncovered, trans, alpha)`. -/
def marginal_price_adjusted_by_spread (bids_uncovered : List Bid) (trans : List Txn)
    (alpha : ℚ) : List Bid × List Txn :=
  let adjusted_price := mpasAdjustedPrice bids_uncovered alpha
  let buying_bids := sortPriceDesc (buyersOf bids_uncovered)
  let selling_bids := sortPriceAsc (sellersOf bids_uncovered)
  let long_side := (longShort buying_bids selling_bids).1
  let short_side := (longShort buying_bids selling_bids).2
  let traded_quantity := sumQ short_side
  let st1 :=
    allocShort (fun _ => adjusted_price) short_side (bids_uncovered, trans, traded_quantity)
  let st2 := allocLong (fun _ => adjusted_price) st1.2.2 long_side (st1.1, st1.2.1, 0)
  (st2.1, st2.2.1)

/-- Round summary assembled by every `two_steps_*_mechanism`: the merged
ledger, `clearing quantity UP`, `clearing price`, the mechanism's quantity
entry, the mechanism's price entry, and `Total quantity`. -/
structure RoundSummary where
  trans : List Txn
  upQuantity : ℚ
  upPrice : Option ℚ
  residQuantity : ℚ
  residPrice : Option ℚ
  totalQuantity : ℚ
deriving DecidableEq

/-- `bidsUP.loc[bid, 'quantity'] -= quantity` applied for every UP transaction
(the remaining-quantity update loop shared by every two-step mechanism). -/
def applyTxns (bids : List Bid) (txns : List Txn) : List Bid :=
  txns.foldl (fun bs t => decrementBid bs t.bid t.quantity) bids

/-- `bidsUP` after the remaining-quantity update loop of a two-step round. -/
def bidsUPOf (bids : List Bid) : List Bid :=
  applyTxns bids (uniform_price_mechanism bids).1

/-- `unsold_quantity = bidsUP.loc[~bidsUP['buying'], 'quantity'].sum()`. -/
def unsoldOf (bids : List Bid) : ℚ := sumQ (sellersOf (bidsUPOf bids))

/-- `demanded_quantity = bidsUP.loc[bidsUP['buying'], 'quantity'].sum()`. -/
def demandedOf (bids : List Bid) : ℚ := sumQ (buyersOf (bidsUPOf bids))

/-- `bids_uncovered = bidsUP.loc[bidsUP['quantity'] > 0, :]`. -/
def uncoveredOf (bids : List Bid) : List Bid :=
  (bidsUPOf bids).filter (fun b => decide (0 < b.quantity))

/-- The two-step skeleton shared verbatim by every `two_steps_*_mechanism`:
run UP, merge its transactions, decrement remaining quantities, compute
`unsold_quantity`/`demanded_quantity`, and run the residual step only when
both are positive; otherwise report quantity 0 at the UP price.  The residual
step receives the uncovered bids, the merged ledger and the UP price, and
returns the new ledger, its reported quantity and its reported price
(`none` models a Python `None`, normalised to the UP price as in the source;
an overall `none` models a residual step that raises or exhausts its fuel). -/
def twoStep (residual : List Bid → List Txn → Option ℚ → Option (List Txn × ℚ × Option ℚ))
    (bids : List Bid) : Option RoundSummary :=
  let trans_UP := (uniform_price_mechanism bids).1
  let UPprice := (uniform_price_mechanism bids).2.price
  let UPq := (uniform_price_mechanism bids).2.quantity
  if 0 < unsoldOf bids ∧ 0 < demandedOf bids then
    match residual (uncoveredOf bids) trans_UP UPprice with
    | none => none
    | some (tr, q, p) =>
      some { trans := tr, upQuantity := UPq, upPrice := UPprice,
             residQuantity := q,
             residPrice := match p with | none => UPprice | some x => some x,
             totalQuantity := UPq + q }
  else
    some { trans := trans_UP, upQuantity := UPq, upPrice := UPprice,
           residQuantity := 0, residPrice := UPprice, totalQuantity := UPq + 0 }

/-- `two_steps_CFRM_mechanism(bids, FIT=.., TOU=..)`.  `FIT` and `TOU` are
accepted and popped but never used by the residual step, exactly as in the
source.  The reported `CFRM quantity` is `bidsM.quantity.sum()` over the
returned uncovered frame. -/
def two_steps_CFRM_mechanism (FIT TOU : ℚ) (bids : List Bid) : Option RoundSummary :=
  twoStep (fun unc tr _ =>
    let (bidsM, tr2, price) := cap_and_floor_range_midpoint unc tr
    some (tr2, sumQ bidsM, some price)) bids

/-- `two_steps_APM_mechanism(bids, ...)`: reported quantity is
`bidsM.quantity.sum()`, reported price `bidsM['price'].mean()` over the
returned frame (or the UP price when it is empty). -/
def two_steps_APM_mechanism (FIT TOU : ℚ) (bids : List Bid) : Option RoundSummary :=
  twoStep (fun unc tr upP =>
    let (bidsM, tr2) := average_price_method unc tr
    some (tr2, sumQ bidsM,
      if bidsM.isEmpty then upP else some (listMean (bidsM.map Bid.price)))) bids

/-- `two_steps_MPAS_mechanism(bids, ..., alpha=..)`. -/
def two_steps_MPAS_mechanism (FIT TOU alpha : ℚ) (bids : List Bid) : Option RoundSummary :=
  twoStep (fun unc tr upP =>
    let (bidsM, tr2) := marginal_price_adjusted_by_spread unc tr alpha
    some (tr2, sumQ bidsM,
      if bidsM.isEmpty then upP else some (listMean (bidsM.map Bid.price)))) bids

/-- One update of the IPA/NBS price loop:
`new_price = adjusted_price + theta * ((pmax - p) + (p - pmin)) / 2`
clipped to `[lo, hi]` (`max(FIT, min(new_price, TOU))` in IPA,
`max(floor, min(new_price, cap))` in NBS). -/
def ipaStep (theta lo hi pmax pmin p : ℚ) : ℚ :=
  max lo (min (p + theta * ((pmax - p) + (p - pmin)) / 2) hi)

/-- The `while True:` convergence loop shared by `iterative_price_adjustment`
and `nash_bargaining_solution`: stop (returning the current price) as soon as
the next clipped update moves by less than `epsilon`; `none` when the fuel
runs out. -/
def ipaLoop (theta epsilon lo hi pmax pmin : ℚ) : ℕ → ℚ → Option ℚ
  | 0, _ => none
  | fuel + 1, p =>
    let new_price := ipaStep theta lo hi pmax pmin p
    if |new_price - p| < epsilon then some p
    else ipaLoop theta epsilon lo hi pmax pmin fuel new_price

/-- One step of the pairwise matching inner loop shared by NBS/CGT/CGTS:
`quantity = min(row['quantity'], seller['quantity'])` — note `row['quantity']`
is the buyer row's SNAPSHOT quantity, not the live frame value — then two
transactions, two decrements; the Python `break` (taken only when the buyer's
live quantity is exactly 0) is modelled by the `Bool` stop flag, which makes
every later step of the same inner loop a no-op.  `priceOf i j` is the pair
price (constant for NBS, Shapley midpoint for CGT/CGTS). -/
def pairStep (priceOf : ℕ → ℕ → ℚ) (i : ℕ) (rowQty : ℚ)
    (st : Bool × List Bid × List Txn) (s : Bid) : Bool × List Bid × List Txn :=
  let (stopped, unc, tr) := st
  if stopped then (stopped, unc, tr)
  else
    let quantity := min rowQty s.quantity
    let price := priceOf i s.idx
    let tr' := tr ++ [⟨i, quantity, price, -1, false⟩, ⟨s.idx, quantity, price, -1, false⟩]
    let unc' := decrementBid (decrementBid unc i quantity) s.idx quantity
    if qtyAt unc' i = 0 then (true, unc', tr') else (false, unc', tr')

/-- The pairwise matching inner loop: fold `pairStep` over the sellers
visible at the start of this buyer's turn. -/
def pairInner (priceOf : ℕ → ℕ → ℚ) (i : ℕ) (rowQty : ℚ)
    (sellers : List Bid) (st : List Bid × List Txn) : List Bid × List Txn :=
  let (_, unc, tr) := sellers.foldl (pairStep priceOf i rowQty) (false, st.1, st.2)
  (unc, tr)

/-- The outer loop of the pairwise matching: iterate the uncovered rows as
first materialised (`iterrows` copies the frame), matching each buying row
against the then-current sellers. -/
def pairOuter (priceOf : ℕ → ℕ → ℚ) :
    List Bid → List Bid × List Txn → List Bid × List Txn
  | [], st => st
  | b :: rest, (unc, tr) =>
    if b.buying then
      pairOuter priceOf rest (pairInner priceOf b.idx b.quantity (sellersOf unc) (unc, tr))
    else pairOuter priceOf rest (unc, tr)

/-- `nash_bargaining_solution(bids_uncovered, trans, cap, floor, theta,
epsilon, MP)`: converge the price from `MP` by the shared loop, then match
pairwise at the converged price.  `fuel` bounds the `while True:` loop;
`none` models non-termination within the fuel. -/
def nash_bargaining_solution (bids_uncovered : List Bid) (trans : List Txn)
    (cap floor theta epsilon MP : ℚ) (fuel : ℕ) :
    Option (List Bid × List Txn × ℚ) :=
  let pmax := listMax (bids_uncovered.map Bid.price)
  let pmin := listMin (bids_uncovered.map Bid.price)
  match ipaLoop theta epsilon floor cap pmax pmin fuel MP with
  | none => none
  | some adjusted_price =>
    let (unc, tr) :=
      pairOuter (fun _ _ => adjusted_price) bids_uncovered (bids_uncovered, trans)
    some (unc, tr, adjusted_price)

/-- `two_steps_NBS_mechanism(bids, cap=.., floor=.., theta=.., epsilon=..)`.
The residual step starts its price loop from the UP clearing price
(`UPprice`); when there is no UP price the source raises a `TypeError`
(`None + float`), modelled as an overall `none`. -/
def two_steps_NBS_mechanism (cap floor theta epsilon : ℚ) (fuel : ℕ)
    (bids : List Bid) : Option RoundSummary :=
  twoStep (fun unc tr upP =>
    match upP with
    | none => none
    | some MP =>
      match nash_bargaining_solution unc tr cap floor theta epsilon MP fuel with
      | none => none
      | some (bidsM, tr2, NBSprice) => some (tr2, sumQ bidsM, some NBSprice)) bids

/-- `iterative_price_adjustment(bids_uncovered, trans, theta, epsilon, MP,
FIT, TOU)`: the shared convergence loop clipped to `[FIT, TOU]`, then the
common short-side/long-side allocation at the converged price. -/
def iterative_price_adjustment (bids_uncovered : List Bid) (trans : List Txn)
    (theta epsilon MP FIT TOU : ℚ) (fuel : ℕ) :
    Option (List Bid × List Txn × ℚ) :=
  let pmax := listMax (bids_uncovered.map Bid.price)
  let pmin := listMin (bids_uncovered.map Bid.price)
  match ipaLoop theta epsilon FIT TOU pmax pmin fuel MP with
  | none => none
  | some adjusted_price =>
    let buying_bids := sortPriceDesc (buyersOf bids_uncovered)
    let selling_bids := sortPriceAsc (sellersOf bids_uncovered)
    let long_side := (longShort buying_bids selling_bids).1
    let short_side := (longShort buying_bids selling_bids).2
    let traded_quantity := sumQ short_side
    let st1 :=
      allocShort (fun _ => adjusted_price) short_side (bids_uncovered, trans, traded_quantity)
    let st2 := allocLong (fun _ => adjusted_price) st1.2.2 long_side (st1.1, st1.2.1, 0)
    some (st2.1, st2.2.1, adjusted_price)

/-- The UPNR price formula
`(sellers['price'].mean() * (1 - k) + buyers['price'].mean() * (1 + k)) / 2`. -/
def nrPriceAt (buyers sellers : List Bid) (k : ℚ) : ℚ :=
  (listMean (sellers.map Bid.price) * (1 - k) + listMean (buyers.map Bid.price) * (1 + k)) / 2

/-- `fprice(k, buyers, sellers, maxQt)`: excess of `maxQt` over the quantity
tradeable at the k-scaled price.  (The source also caps two locals `demand`
and `supply` at `maxQt` after computing `Qt`; they are never read again, so
the capping is omitted.) -/
def fprice (buyers sellers : List Bid) (maxQt k : ℚ) : ℚ :=
  let price := nrPriceAt buyers sellers k
  let demand := ((buyers.filter (fun b => decide (price < b.price * (1 + k)))).map Bid.quantity).sum
  let supply := ((sellers.filter (fun b => decide (b.price * (1 - k) < price))).map Bid.quantity).sum
  let Qt := min demand supply
  maxQt - Qt

/-- The `h`-search of `numerical_derivative`: try `h, 10*h, ...` up to
`max_iterations` times, returning the first nonzero finite difference, else 0.
`k0` is the `k` the nested function closes over — the enclosing function's
`k = 0.0005`, NOT the Newton iterate (the inner loop's `k` never reaches this
closure in the source). -/
def numericalDerivativeGo (buyers sellers : List Bid) (maxQt k0 : ℚ) :
    ℕ → ℚ → ℚ
  | 0, _ => 0
  | n + 1, h =>
    let derivative := (fprice buyers sellers maxQt (k0 + h) - fprice buyers sellers maxQt k0) / h
    if derivative ≠ 0 then derivative
    else numericalDerivativeGo buyers sellers maxQt k0 n (h * 10)

/-- `numerical_derivative(f, buyers, sellers, maxQt)` with the default
`initial_h=1e-5, max_iterations=100`. -/
def numerical_derivative (buyers sellers : List Bid) (maxQt k0 : ℚ) : ℚ :=
  numericalDerivativeGo buyers sellers maxQt k0 100 (1 / 100000)

/-- The iteration body of `find_equilibrium_newton_raphson` with default
`tolerance=0.01, epsilon=1e-5`: early-return the rounded price once
`|fprice| < 0.01`, else do the damped Newton update and remember the rounded
price of the new iterate; after the iteration budget return the remembered
price.  `k0` is the initial `k`, at which the derivative is (re)evaluated
every iteration because of the closure described above. -/
def findEqGo (buyers sellers : List Bid) (maxQt k0 : ℚ) : ℕ → ℚ → ℚ → ℚ
  | 0, _, price => price
  | n + 1, k, _ =>
    let f_p := fprice buyers sellers maxQt k
    let f_prime_p := numerical_derivative buyers sellers maxQt k0
    if |f_p| < 1 / 100 then round4 (nrPriceAt buyers sellers k)
    else
      let k' := k - (1 / 10) * f_p / (f_prime_p + 1 / 100000)
      findEqGo buyers sellers maxQt k0 n k' (round4 (nrPriceAt buyers sellers k'))

/-- `find_equilibrium_newton_raphson(k, buyers, sellers)` with
`max_iterations=100` and `k = 0.0005`, as called by
`newton_raphson_adjustment`.  (The initial `price` accumulator 0 is
unreachable: the source would raise `NameError` if `max_iterations` were 0.) -/
def find_equilibrium_newton_raphson (buyers sellers : List Bid) (maxQt : ℚ) : ℚ :=
  findEqGo buyers sellers maxQt (1 / 2000) 100 (1 / 2000) 0

/-- Return tuple of `newton_raphson_adjustment` (the ledger is threaded
explicitly): mutated uncovered frame, ledger, and the reported
`price`/`traded_quantity` pair. -/
structure NRResult where
  unc : List Bid
  trans : List Txn
  QB : ℚ
  QS : ℚ
  price : ℚ
  qty : ℚ
deriving DecidableEq

/-- The UPNR long-side loop (the correctly-guarded counterpart of
`allocLong`): `if quantity_added == traded_quantity: break;
x_quantity = x.quantity if x.quantity + quantity_added <= traded_quantity
else traded_quantity - quantity_added`. -/
def nrAllocLong (price traded : ℚ) :
    List Bid → List Bid × List Txn × ℚ → List Bid × List Txn × ℚ
  | [], st => st
  | x :: rest, (unc, tr, added) =>
    if added = traded then (unc, tr, added)
    else
      let x_quantity := if x.quantity + added ≤ traded then x.quantity else traded - added
      nrAllocLong price traded rest
        (decrementBid unc x.idx x_quantity,
         tr ++ [⟨x.idx, x_quantity, price, -1, false⟩], added + x_quantity)

/-- The UPNR short-side loop: every short-side row trades its full quantity
at `price` (no guard in the source). -/
def nrAllocShort (price : ℚ) :
    List Bid → List Bid × List Txn → List Bid × List Txn
  | [], st => st
  | x :: rest, (unc, tr) =>
    nrAllocShort price rest
      (decrementBid unc x.idx x.quantity, tr ++ [⟨x.idx, x.quantity, price, -1, false⟩])

/-- `newton_raphson_adjustment(bids_uncovered, trans, FIT, TOU)`: find the
equilibrium price by damped Newton iteration; if it lands strictly outside
`[FIT, TOU]` reject — return the untouched frame and ledger with price 0 and
quantity 0 — otherwise trade the whole short side and match the long side up
to it. -/
def newton_raphson_adjustment (bids_uncovered : List Bid) (trans : List Txn)
    (FIT TOU : ℚ) : NRResult :=
  let buyers := sortPriceDesc (buyersOf bids_uncovered)
  let sellers := sortPriceAsc (sellersOf bids_uncovered)
  let QS := sumQ sellers
  let QB := sumQ buyers
  let maxQt := min QS QB
  let price := find_equilibrium_newton_raphson buyers sellers maxQt
  if TOU < price ∨ price < FIT then
    ⟨bids_uncovered, trans, QB, QS, 0, 0⟩
  else
    let long_side := if QS < QB then buyers else sellers
    let short_side := if QS < QB then sellers else buyers
    let traded_quantity := maxQt
    let st1 := nrAllocShort price short_side (bids_uncovered, trans)
    let st2 := nrAllocLong price traded_quantity long_side (st1.1, st1.2, 0)
    ⟨st2.1, st2.2.1, QB, QS, price, traded_quantity⟩

/-- `two_steps_UPNR_mechanism(bids, FIT=.., TOU=..)`: the shared two-step
skeleton with the Newton-Raphson residual; the reported `mediation quantity`
and `last price` come directly from the residual's return value. -/
def two_steps_UPNR_mechanism (FIT TOU : ℚ) (bids : List Bid) : Option RoundSummary :=
  twoStep (fun unc tr _ =>
    let r := newton_raphson_adjustment unc tr FIT TOU
    some (r.trans, r.qty, some r.price)) bids

/-- `calculate_welfare(bids)` =
`(bids.loc[bids['buying'], 'price'] - bids.loc[~bids['buying'], 'price']).sum()`.
The pandas subtraction ALIGNS the two series on their index: an index present
on only one side yields NaN, and `.sum()` skips NaN.  So only an index
carried by both a buy row and a sell row contributes `buy price - sell price`
(for a well-formed frame there is no such index and the welfare is 0).
Duplicate indices (never produced here) are out of scope of this model.
`findSell` below finds the sell row aligned with a given index. -/
def findSell : List Bid → ℕ → Option Bid
  | [], _ => none
  | s :: rest, i => if !s.buying && decide (s.idx = i) then some s else findSell rest i

/-- First row with index `i` (the `.loc[i]` row lookup; unique index). -/
def findBid : List Bid → ℕ → Option Bid
  | [], _ => none
  | b :: rest, i => if b.idx = i then some b else findBid rest i

/-- The aligned series subtraction and sum described above `findSell`. -/
def calculate_welfare (rows : List Bid) : ℚ :=
  ((rows.filter (fun b => b.buying)).filterMap (fun b =>
    match findSell rows b.idx with
    | some s => some (b.price - s.price)
    | none => none)).sum

/-- `bids_uncovered.loc[S]`: the rows selected by the index list `S`, in the
order of `S` (absent indices would raise in the source; none occur here). -/
def locRows (unc : List Bid) (S : List ℕ) : List Bid :=
  S.filterMap (findBid unc)

/-- Pointwise update of the `shapley_values` dictionary:
`shapley_values[p] += v`. -/
def shapUpdate (f : ℕ → ℚ) (p : ℕ) (v : ℚ) : ℕ → ℚ :=
  fun x => if x = p then f x + v else f x

/-- One Monte-Carlo sample of `cooperative_game_theory_shapley_monte_carlo`:
walk one random ordering, growing the coalition `S` and crediting each
participant `(W_S_plus_p - W_S) / num_samples`. -/
def cgtsSample (unc : List Bid) (num_samples : ℕ) :
    List ℕ → List ℕ → (ℕ → ℚ) → (ℕ → ℚ)
  | [], _, f => f
  | p :: rest, S, f =>
    let W_S := if S.isEmpty then 0 else calculate_welfare (locRows unc S)
    let S' := S ++ [p]
    let W_S_plus_p := calculate_welfare (locRows unc S')
    cgtsSample unc num_samples rest S'
      (shapUpdate f p ((W_S_plus_p - W_S) / (num_samples : ℚ)))

/-- The Monte-Carlo Shapley estimate: fold the samples over the supplied
orderings.  `shuffles` models the successive states of the in-place
`random.shuffle(participants)` — the only effect the process-global `random`
module has on the mechanism; there is no seed parameter in the source. -/
def cgtsShapley (unc : List Bid) (num_samples : ℕ) (shuffles : List (List ℕ)) :
    ℕ → ℚ :=
  shuffles.foldl (fun f order => cgtsSample unc num_samples order [] f) (fun _ => 0)

/-- `cooperative_game_theory_shapley_monte_carlo(bids_uncovered, trans, cap,
floor, num_samples)`: Monte-Carlo Shapley values, then the pairwise matching
loop at the clipped Shapley-midpoint pair price; returns the mutated frame,
the ledger and the mean Shapley value. -/
def cooperative_game_theory_shapley_monte_carlo (bids_uncovered : List Bid)
    (trans : List Txn) (cap floor : ℚ) (num_samples : ℕ)
    (shuffles : List (List ℕ)) : List Bid × List Txn × ℚ :=
  let shapley_values := cgtsShapley bids_uncovered num_samples shuffles
  let (unc, tr) :=
    pairOuter (fun i j => max floor (min ((shapley_values i + shapley_values j) / 2) cap))
      bids_uncovered (bids_uncovered, trans)
  let participants := bids_uncovered.map Bid.idx
  (unc, tr, (participants.map shapley_values).sum / (participants.length : ℚ))

/-- The parameter list of `cooperative_game_theory_shapley_monte_carlo` as
declared in the source (src/BM_LEM/pricing_CGTS.py, line 7).  The random
orderings come from the process-global `random` module
(`random.shuffle(participants)`); no seed is accepted. -/
def cgtsParamNames : List String :=
  ["bids_uncovered", "trans", "cap", "floor", "num_samples"]

/-! ### The candidate scan: first-maximal characterisation -/

/-- The running maximum of `traded` over the candidates, floored at the
initial `best_quantity`. -/
def foldMax (t : ℚ → ℚ) (cs : List ℚ) (a : ℚ) : ℚ :=
  cs.foldl (fun x p => max x (t p)) a

lemma foldMax_nil (t : ℚ → ℚ) (a : ℚ) : foldMax t [] a = a := rfl

lemma foldMax_cons (t : ℚ → ℚ) (c : ℚ) (cs : List ℚ) (a : ℚ) :
    foldMax t (c :: cs) a = foldMax t cs (max a (t c)) := rfl

lemma scanBest_nil (t : ℚ → ℚ) (acc : ℚ × Option ℚ) : scanBest t [] acc = acc := rfl

lemma scanBest_cons (t : ℚ → ℚ) (c : ℚ) (cs : List ℚ) (acc : ℚ × Option ℚ) :
    scanBest t (c :: cs) acc =
      scanBest t cs (if acc.1 < t c then (t c, some c) else acc) := rfl

lemma le_foldMax (t : ℚ → ℚ) (cs : List ℚ) (a : ℚ) : a ≤ foldMax t cs a := by
  induction cs generalizing a with
  | nil => exact le_refl a
  | cons c rest ih =>
    rw [foldMax_cons]
    exact le_trans (le_max_left a (t c)) (ih (max a (t c)))

lemma foldMax_le {t : ℚ → ℚ} {cs : List ℚ} {a b : ℚ} (ha : a ≤ b)
    (h : ∀ c ∈ cs, t c ≤ b) : foldMax t cs a ≤ b := by
  induction cs generalizing a with
  | nil => exact ha
  | cons c rest ih =>
    rw [foldMax_cons]
    exact ih (max_le ha (h c (List.mem_cons_self c rest)))
      (fun x hx => h x (List.mem_cons_of_mem c hx))

lemma mem_le_foldMax {t : ℚ → ℚ} {cs : List ℚ} {a : ℚ} {c : ℚ} (hc : c ∈ cs) :
    t c ≤ foldMax t cs a := by
  induction cs generalizing a with
  | nil => cases hc
  | cons x rest ih =>
    rw [foldMax_cons]
    rcases List.mem_cons.mp hc with h | h
    · subst h
      exact le_trans (le_max_right a (t c)) (le_foldMax t rest (max a (t c)))
    · exact ih h

lemma foldMax_attained {t : ℚ → ℚ} {cs : List ℚ} {a : ℚ} :
    foldMax t cs a = a ∨ ∃ c ∈ cs, foldMax t cs a = t c := by
  induction cs generalizing a with
  | nil => exact Or.inl rfl
  | cons c rest ih =>
    rw [foldMax_cons]
    rcases @ih (max a (t c)) with h | h
    · rcases max_cases a (t c) with ⟨he, _⟩ | ⟨he, _⟩
      · exact Or.inl (by rw [h, he])
      · exact Or.inr ⟨c, List.mem_cons_self c rest, by rw [h, he]⟩
    · rcases h with ⟨x, hx, he⟩
      exact Or.inr ⟨x, List.mem_cons_of_mem c hx, he⟩

lemma scanBest_fst (t : ℚ → ℚ) (cs : List ℚ) (acc : ℚ × Option ℚ) :
    (scanBest t cs acc).1 = foldMax t cs acc.1 := by
  induction cs generalizing acc with
  | nil => rfl
  | cons c rest ih =>
    rw [scanBest_cons, foldMax_cons, ih]
    by_cases h : acc.1 < t c
    · rw [if_pos h, max_eq_right (le_of_lt h)]
    · rw [if_neg h, max_eq_left (le_of_not_lt h)]

lemma scanBest_const {t : ℚ → ℚ} {cs : List ℚ} {acc : ℚ × Option ℚ}
    (h : ∀ c ∈ cs, t c ≤ acc.1) : scanBest t cs acc = acc := by
  induction cs with
  | nil => rfl
  | cons c rest ih =>
    rw [scanBest_cons,
      if_neg (not_lt.mpr (h c (List.mem_cons_self c rest)))]
    exact ih (fun x hx => h x (List.mem_cons_of_mem c hx))

/-- The strict-improvement scan keeps the first candidate attaining the
overall maximum: with initial best `q0` strictly below the maximum `M`,
the fold ends at `(M, first candidate with traded = M)`. -/
lemma scanBest_eq_find {t : ℚ → ℚ} {M : ℚ} :
    ∀ (cs : List ℚ) (q0 : ℚ) (o : Option ℚ),
      (∀ c ∈ cs, t c ≤ M) → (∃ c ∈ cs, t c = M) → q0 < M →
      scanBest t cs (q0, o) = (M, cs.find? (fun p => decide (t p = M)))
  | [], _, _, _, hex, _ => by rcases hex with ⟨c, hc, _⟩; cases hc
  | c :: rest, q0, o, hub, hex, hq => by
    rw [scanBest_cons]
    by_cases hcM : t c = M
    · rw [List.find?_cons_of_pos _ (by simp [hcM])]
      rw [if_pos (show (q0, o).1 < t c from hcM ▸ hq), hcM]
      exact scanBest_const (fun x hx => hub x (List.mem_cons_of_mem c hx))
    · have hclt : t c < M :=
        lt_of_le_of_ne (hub c (List.mem_cons_self c rest)) hcM
      have hex' : ∃ x ∈ rest, t x = M := by
        rcases hex with ⟨x, hx, hxe⟩
        rcases List.mem_cons.mp hx with h | h
        · exact absurd (h ▸ hxe) hcM
        · exact ⟨x, h, hxe⟩
      have hub' : ∀ x ∈ rest, t x ≤ M :=
        fun x hx => hub x (List.mem_cons_of_mem c hx)
      rw [List.find?_cons_of_neg _ (by simp [hcM])]
      by_cases hq' : (q0, o).1 < t c
      · rw [if_pos hq']
        exact scanBest_eq_find rest (t c) (some c) hub' hex' hclt
      · rw [if_neg hq']
        exact scanBest_eq_find rest q0 o hub' hex' hq

/-- Modelled from the spec (section 4.1): enumerate candidate prices, compute
the maximal `traded(p)`, keep the first (lowest, the scan being ascending)
candidate attaining it, and return the empty clearing when no candidate
trades a positive quantity. -/
def clearingSpec (bids : List Bid) : Option (ℚ × ℚ) :=
  let cands := candidatePrices bids
  let M := foldMax (tradedAt bids) cands 0
  if M = 0 then none
  else (cands.find? (fun p => decide (tradedAt bids p = M))).map (fun p => (M, p))

lemma demandAt_of_no_buyers {bids : List Bid} (h : buyersOf bids = []) (p : ℚ) :
    demandAt bids p = 0 := by
  rw [demandAt, h]; rfl

lemma supplyAt_of_no_sellers {bids : List Bid} (h : sellersOf bids = []) (p : ℚ) :
    supplyAt bids p = 0 := by
  rw [supplyAt, h]; rfl

/-- The uniform-price clearer computes exactly the spec's clearing rule. -/
lemma find_clearing_eq_clearingSpec (bids : List Bid) :
    find_clearing_price_and_quantity bids = clearingSpec bids := by
  rw [find_clearing_price_and_quantity, clearingSpec]
  by_cases hbe : buyersOf bids = [] ∨ sellersOf bids = []
  · have hM : foldMax (tradedAt bids) (candidatePrices bids) 0 = 0 := by
      refine le_antisymm (foldMax_le (le_refl 0) ?_) (le_foldMax _ _ _)
      intro c _
      rcases hbe with h | h
      · exact le_trans (min_le_left _ _) (le_of_eq (demandAt_of_no_buyers h c))
      · exact le_trans (min_le_right _ _) (le_of_eq (supplyAt_of_no_sellers h c))
    rw [if_pos hM]
    rcases hbe with h | h
    · rw [h]; simp only [List.isEmpty_nil, Bool.true_or, if_true]
    · rw [h]; simp only [List.isEmpty_nil, Bool.or_true, if_true]
  · push_neg at hbe
    rw [if_neg (by
      simp only [Bool.or_eq_true, List.isEmpty_iff]
      exact fun h => h.elim hbe.1 hbe.2)]
    by_cases hM : foldMax (tradedAt bids) (candidatePrices bids) 0 = 0
    · rw [if_pos hM]
      have hscan : scanBest (tradedAt bids) (candidatePrices bids) (0, none) = (0, none) := by
        refine scanBest_const ?_
        intro c hc
        calc tradedAt bids c ≤ foldMax (tradedAt bids) (candidatePrices bids) 0 :=
              mem_le_foldMax hc
        _ = 0 := hM
      rw [hscan, if_pos rfl]
    · rw [if_neg hM]
      have hM0 : (0 : ℚ) < foldMax (tradedAt bids) (candidatePrices bids) 0 :=
        lt_of_le_of_ne (le_foldMax _ _ _) (Ne.symm hM)
      have hex : ∃ c ∈ candidatePrices bids,
          tradedAt bids c = foldMax (tradedAt bids) (candidatePrices bids) 0 := by
        rcases @foldMax_attained (tradedAt bids) (candidatePrices bids) 0 with h | h
        · exact absurd h hM
        · rcases h with ⟨c, hc, he⟩; exact ⟨c, hc, he.symm⟩
      rw [scanBest_eq_find (candidatePrices bids) 0 none
        (fun c hc => mem_le_foldMax hc) hex hM0]
      rw [if_neg hM]
      rcases hex with ⟨c, hc, hce⟩
      have hf : (List.find? (fun p => decide
          (tradedAt bids p = foldMax (tradedAt bids) (candidatePrices bids) 0))
          (candidatePrices bids)).isSome := by
        refine List.find?_isSome.mpr ⟨c, hc, by simp [hce]⟩
      rcases Option.isSome_iff_exists.mp hf with ⟨p, hp⟩
      rw [hp]
      rfl

/-! ### The worked example of the spec (section 8) -/

/-- The spec's worked example bid set:
buy(id=1, qty=10, price=0.30), buy(id=2, qty=5, price=0.20),
sell(id=3, qty=8, price=0.10), sell(id=4, qty=10, price=0.25). -/
def exBids : List Bid :=
  [⟨1, true, 10, 3/10⟩, ⟨2, true, 5, 1/5⟩, ⟨3, false, 8, 1/10⟩, ⟨4, false, 10, 1/4⟩]

lemma exBids_clearing :
    find_clearing_price_and_quantity exBids = some (10, 1/4) := by
  norm_num [find_clearing_price_and_quantity, candidatePrices, exBids, List.dedup,
    List.insertionSort, List.orderedInsert, scanBest, tradedAt, demandAt, supplyAt,
    buyersOf, sellersOf, List.filter]

lemma exBids_up :
    uniform_price_mechanism exBids =
      ([⟨3, 8, 1/4, -1, false⟩, ⟨4, 2, 1/4, -1, false⟩, ⟨1, 10, 1/4, -1, false⟩],
       ⟨10, some (1/4)⟩) := by
  rw [uniform_price_mechanism, exBids_clearing]
  norm_num [upBuyersAt, upSellersAt, exBids, List.filter, sortPriceAsc, sortPriceDesc,
    List.insertionSort, List.orderedInsert, sumQ, upAlloc, round4, round_eq]

/-! ### Claim C1 -/

/-- C1 (counterexample): on the spec's worked example the clearer returns
clearing quantity 10 at price 0.25, not the quantity 15 at price 0.20 that
the claim asserts (at p = 0.20 the supply is only 8: seller id4's ask 0.25
exceeds 0.20, so traded(0.20) = 8, while traded(0.25) = 10 is maximal). -/
theorem worked_example_clears_at_quarter :
    find_clearing_price_and_quantity exBids = some (10, 1/4) ∧
      ¬ find_clearing_price_and_quantity exBids = some (15, 1/5) := by
  refine ⟨exBids_clearing, ?_⟩
  rw [exBids_clearing]
  intro h
  rw [Option.some_inj, Prod.mk.injEq] at h
  exact absurd h.1 (by norm_num)

/-- C1 (amended): the uniform-price clearer selects price and quantity
exactly as the spec's scan describes — `clearingSpec` transcribes the spec's
words: demand/supply/traded per candidate, maximal traded quantity, first
(lowest) candidate attaining it, empty clearing when nothing positive trades
— and on the worked example it clears 10 units at price 0.25, filling seller
id3 for 8, seller id4 for 2 and buyer id1 for 10. -/
theorem uniform_price_clearing_refines_spec :
    (∀ bids : List Bid,
        find_clearing_price_and_quantity bids = clearingSpec bids) ∧
      uniform_price_mechanism exBids =
        ([⟨3, 8, 1/4, -1, false⟩, ⟨4, 2, 1/4, -1, false⟩, ⟨1, 10, 1/4, -1, false⟩],
         ⟨10, some (1/4)⟩) :=
  ⟨find_clearing_eq_clearingSpec, exBids_up⟩

/-! ### Claim C10: double-entry structure of the primary ledger -/

lemma sumQ_nonneg {l : List Bid} (h : ∀ b ∈ l, 0 ≤ b.quantity) : 0 ≤ sumQ l := by
  refine List.sum_nonneg ?_
  intro x hx
  rcases List.mem_map.mp hx with ⟨b, hb, rfl⟩
  exact h b hb

lemma sumQ_cons (b : Bid) (l : List Bid) : sumQ (b :: l) = b.quantity + sumQ l := by
  rw [sumQ, List.map_cons, List.sum_cons]; rfl

lemma sortPriceAsc_perm (l : List Bid) : (sortPriceAsc l).Perm l :=
  List.perm_insertionSort _ l

lemma sortPriceDesc_perm (l : List Bid) : (sortPriceDesc l).Perm l :=
  List.perm_insertionSort _ l

lemma sumQ_sortPriceAsc (l : List Bid) : sumQ (sortPriceAsc l) = sumQ l :=
  ((sortPriceAsc_perm l).map Bid.quantity).sum_eq

lemma sumQ_sortPriceDesc (l : List Bid) : sumQ (sortPriceDesc l) = sumQ l :=
  ((sortPriceDesc_perm l).map Bid.quantity).sum_eq

lemma mem_sortPriceAsc {b : Bid} {l : List Bid} (h : b ∈ sortPriceAsc l) : b ∈ l :=
  (sortPriceAsc_perm l).mem_iff.mp h

lemma mem_sortPriceDesc {b : Bid} {l : List Bid} (h : b ∈ sortPriceDesc l) : b ∈ l :=
  (sortPriceDesc_perm l).mem_iff.mp h

lemma sumQ_upBuyersAt (bids : List Bid) (p : ℚ) :
    sumQ (upBuyersAt bids p) = demandAt bids p := by
  rw [upBuyersAt, sumQ_sortPriceDesc, demandAt, buyersOf, List.filter_filter]
  have : (fun a : Bid => decide (p ≤ a.price) && a.buying)
      = (fun a : Bid => a.buying && decide (p ≤ a.price)) := by
    funext a
    exact Bool.and_comm _ _
  rw [this]
  rfl

lemma sumQ_upSellersAt (bids : List Bid) (p : ℚ) :
    sumQ (upSellersAt bids p) = supplyAt bids p := by
  rw [upSellersAt, sumQ_sortPriceAsc, supplyAt, sellersOf, List.filter_filter]
  have : (fun a : Bid => decide (a.price ≤ p) && !a.buying)
      = (fun a : Bid => !a.buying && decide (a.price ≤ p)) := by
    funext a
    exact Bool.and_comm _ _
  rw [this]
  rfl

/-- The greedy allocation loop trades exactly `min(qty_left, side total)`. -/
lemma upAlloc_sum (price : ℚ) :
    ∀ (l : List Bid) (left : ℚ), (∀ b ∈ l, 0 ≤ b.quantity) → 0 ≤ left →
      ((upAlloc price l left).map Txn.quantity).sum = min left (sumQ l)
  | [], left, _, hleft => by
    rw [upAlloc]
    have : sumQ ([] : List Bid) = 0 := rfl
    rw [this, min_eq_right hleft]
    rfl
  | b :: rest, left, hq, hleft => by
    have hb : 0 ≤ b.quantity := hq b (List.mem_cons_self b rest)
    have hrest : ∀ x ∈ rest, 0 ≤ x.quantity :=
      fun x hx => hq x (List.mem_cons_of_mem b hx)
    have hsum : 0 ≤ sumQ rest := sumQ_nonneg hrest
    rw [upAlloc, sumQ_cons]
    by_cases hq0 : min b.quantity left ≤ 0
    · rw [if_pos hq0]
      have hmin0 : min b.quantity left = 0 :=
        le_antisymm hq0 (le_min hb hleft)
      rw [upAlloc_sum price rest left hrest hleft]
      rcases min_cases b.quantity left with ⟨he, _⟩ | ⟨he, hle⟩
      · have hb0 : b.quantity = 0 := by rw [← he, hmin0]
        rw [hb0, zero_add]
      · have hl0 : left = 0 := by rw [← he, hmin0]
        subst hl0
        rw [min_eq_left hsum, min_eq_left (by linarith)]
    · rw [if_neg hq0]
      push_neg at hq0
      by_cases hstop : left - min b.quantity left ≤ 0
      · rw [if_pos hstop]
        have hql : min b.quantity left = left :=
          le_antisymm (min_le_right _ _) (by linarith)
        have hlb : left ≤ b.quantity := by
          rcases min_cases b.quantity left with ⟨he, hle⟩ | ⟨_, hle⟩
          · rw [he] at hql; rw [hql]
          · exact le_of_lt hle
        rw [List.map_cons]
        have : (([] : List Txn).map Txn.quantity).sum = 0 := rfl
        rw [List.map_nil, List.sum_cons, List.sum_nil, add_zero, hql,
          min_eq_left (by linarith)]
      · rw [if_neg hstop]
        push_neg at hstop
        have hqb : min b.quantity left = b.quantity := by
          rcases min_cases b.quantity left with ⟨he, _⟩ | ⟨he, hle⟩
          · exact he
          · exfalso
            rw [he] at hstop
            linarith
        rw [List.map_cons, List.sum_cons, hqb]
        rw [upAlloc_sum price rest (left - b.quantity) hrest (by rw [hqb] at hstop; linarith)]
        rw [← min_add_add_left]
        have : b.quantity + (left - b.quantity) = left := by ring
        rw [this]

/-- Every transaction the greedy loop records: source tag -1, the loop's
price, and a bid index drawn from the side being allocated. -/
lemma upAlloc_mem (price : ℚ) :
    ∀ (l : List Bid) (left : ℚ) (t : Txn), t ∈ upAlloc price l left →
      t.source = -1 ∧ t.price = price ∧ ∃ b ∈ l, t.bid = b.idx
  | [], left, t, ht => by cases ht
  | b :: rest, left, t, ht => by
    rw [upAlloc] at ht
    by_cases hq0 : min b.quantity left ≤ 0
    · rw [if_pos hq0] at ht
      rcases upAlloc_mem price rest left t ht with ⟨h1, h2, x, hx, h3⟩
      exact ⟨h1, h2, x, List.mem_cons_of_mem b hx, h3⟩
    · rw [if_neg hq0] at ht
      by_cases hstop : left - min b.quantity left ≤ 0
      · rw [if_pos hstop] at ht
        rcases List.mem_singleton.mp ht with rfl
        exact ⟨rfl, rfl, b, List.mem_cons_self b rest, rfl⟩
      · rw [if_neg hstop] at ht
        rcases List.mem_cons.mp ht with rfl | ht'
        · exact ⟨rfl, rfl, b, List.mem_cons_self b rest, rfl⟩
        · rcases upAlloc_mem price rest (left - min b.quantity left) t ht' with
            ⟨h1, h2, x, hx, h3⟩
          exact ⟨h1, h2, x, List.mem_cons_of_mem b hx, h3⟩

/-- What a successful clearing return means: the returned quantity is the
traded quantity at the returned price, and it is positive. -/
lemma find_clearing_some {bids : List Bid} {q p : ℚ}
    (h : find_clearing_price_and_quantity bids = some (q, p)) :
    tradedAt bids p = q ∧ 0 < q := by
  rw [find_clearing_eq_clearingSpec, clearingSpec] at h
  by_cases hM : foldMax (tradedAt bids) (candidatePrices bids) 0 = 0
  · rw [if_pos hM] at h; cases h
  · rw [if_neg hM] at h
    rcases Option.map_eq_some'.mp h with ⟨x, hx, he⟩
    rw [Prod.mk.injEq] at he
    have hfound := List.find?_some hx
    rw [decide_eq_true_eq] at hfound
    refine ⟨by rw [← he.2, hfound, he.1], ?_⟩
    rw [← he.1]
    exact lt_of_le_of_ne (le_foldMax _ _ _) (Ne.symm hM)

lemma buyer_seller_idx_ne {bids : List Bid} (hid : (bids.map Bid.idx).Nodup)
    {b s : Bid} (hb : b ∈ buyersOf bids) (hs : s ∈ sellersOf bids) :
    b.idx ≠ s.idx := by
  rcases List.mem_filter.mp hb with ⟨hbm, hbb⟩
  rcases List.mem_filter.mp hs with ⟨hsm, hsb⟩
  intro he
  have : b = s := List.inj_on_of_nodup_map hid hbm hsm he
  subst this
  rw [hbb] at hsb
  cases hsb

/-- C10: the primary ledger is double-entry — the seller-side transactions
alone sum to the clearing quantity, the buyer-side transactions alone sum to
the clearing quantity, every transaction carries source tag -1, and the whole
ledger sums to twice the clearing quantity. -/
theorem uniform_price_double_entry_ledger (bids : List Bid) (q p : ℚ)
    (hid : (bids.map Bid.idx).Nodup) (hq : ∀ b ∈ bids, 0 < b.quantity)
    (hcl : find_clearing_price_and_quantity bids = some (q, p)) :
    ((((uniform_price_mechanism bids).1.filter
        (fun t => (sellersOf bids).any (fun b => b.idx = t.bid))).map Txn.quantity).sum = q)
    ∧ ((((uniform_price_mechanism bids).1.filter
        (fun t => (buyersOf bids).any (fun b => b.idx = t.bid))).map Txn.quantity).sum = q)
    ∧ (∀ t ∈ (uniform_price_mechanism bids).1, t.source = -1)
    ∧ (((uniform_price_mechanism bids).1.map Txn.quantity).sum = 2 * q) := by
  rcases find_clearing_some hcl with ⟨htr, hq0⟩
  have hTr : (uniform_price_mechanism bids).1 =
      upAlloc p (upSellersAt bids p) (min (sumQ (upBuyersAt bids p)) (sumQ (upSellersAt bids p)))
      ++ upAlloc p (upBuyersAt bids p) (min (sumQ (upBuyersAt bids p)) (sumQ (upSellersAt bids p))) := by
    rw [uniform_price_mechanism, hcl]
  have htq : min (sumQ (upBuyersAt bids p)) (sumQ (upSellersAt bids p)) = q := by
    rw [sumQ_upBuyersAt, sumQ_upSellersAt, ← tradedAt, htr]
  have hqs : ∀ b ∈ upSellersAt bids p, 0 ≤ b.quantity := by
    intro b hb
    rcases List.mem_filter.mp (mem_sortPriceAsc hb) with ⟨hbm, _⟩
    exact le_of_lt (hq b hbm)
  have hqb : ∀ b ∈ upBuyersAt bids p, 0 ≤ b.quantity := by
    intro b hb
    rcases List.mem_filter.mp (mem_sortPriceDesc hb) with ⟨hbm, _⟩
    exact le_of_lt (hq b hbm)
  have hsell_sum : ((upAlloc p (upSellersAt bids p) q).map Txn.quantity).sum = q := by
    rw [upAlloc_sum p _ q hqs (le_of_lt hq0), min_eq_left]
    rw [sumQ_upSellersAt]
    rw [← htr, tradedAt]
    exact min_le_right _ _
  have hbuy_sum : ((upAlloc p (upBuyersAt bids p) q).map Txn.quantity).sum = q := by
    rw [upAlloc_sum p _ q hqb (le_of_lt hq0), min_eq_left]
    rw [sumQ_upBuyersAt]
    rw [← htr, tradedAt]
    exact min_le_left _ _
  have hsell_bid : ∀ t ∈ upAlloc p (upSellersAt bids p) q, ∃ b ∈ sellersOf bids, t.bid = b.idx := by
    intro t ht
    rcases upAlloc_mem p _ q t ht with ⟨_, _, b, hb, he⟩
    rcases List.mem_filter.mp (mem_sortPriceAsc hb) with ⟨hbm, hbp⟩
    rw [Bool.and_eq_true] at hbp
    exact ⟨b, List.mem_filter.mpr ⟨hbm, hbp.1⟩, he⟩
  have hbuy_bid : ∀ t ∈ upAlloc p (upBuyersAt bids p) q, ∃ b ∈ buyersOf bids, t.bid = b.idx := by
    intro t ht
    rcases upAlloc_mem p _ q t ht with ⟨_, _, b, hb, he⟩
    rcases List.mem_filter.mp (mem_sortPriceDesc hb) with ⟨hbm, hbp⟩
    rw [Bool.and_eq_true] at hbp
    exact ⟨b, List.mem_filter.mpr ⟨hbm, hbp.1⟩, he⟩
  have hfilter_sell_sell : (upAlloc p (upSellersAt bids p) q).filter
      (fun t => (sellersOf bids).any (fun b => b.idx = t.bid)) =
      upAlloc p (upSellersAt bids p) q := by
    refine List.filter_eq_self.mpr ?_
    intro t ht
    rcases hsell_bid t ht with ⟨b, hb, he⟩
    exact List.any_eq_true.mpr ⟨b, hb, by simp [he]⟩
  have hfilter_sell_buy : (upAlloc p (upBuyersAt bids p) q).filter
      (fun t => (sellersOf bids).any (fun b => b.idx = t.bid)) = [] := by
    refine List.filter_eq_nil_iff.mpr ?_
    intro t ht
    rcases hbuy_bid t ht with ⟨b, hb, he⟩
    intro hcon
    rcases List.any_eq_true.mp hcon with ⟨s, hs, hse⟩
    rw [decide_eq_true_eq] at hse
    exact buyer_seller_idx_ne hid hb hs ((hse.trans he).symm)
  have hfilter_buy_buy : (upAlloc p (upBuyersAt bids p) q).filter
      (fun t => (buyersOf bids).any (fun b => b.idx = t.bid)) =
      upAlloc p (upBuyersAt bids p) q := by
    refine List.filter_eq_self.mpr ?_
    intro t ht
    rcases hbuy_bid t ht with ⟨b, hb, he⟩
    exact List.any_eq_true.mpr ⟨b, hb, by simp [he]⟩
  have hfilter_buy_sell : (upAlloc p (upSellersAt bids p) q).filter
      (fun t => (buyersOf bids).any (fun b => b.idx = t.bid)) = [] := by
    refine List.filter_eq_nil_iff.mpr ?_
    intro t ht
    rcases hsell_bid t ht with ⟨s, hs, he⟩
    intro hcon
    rcases List.any_eq_true.mp hcon with ⟨b, hb, hbe⟩
    rw [decide_eq_true_eq] at hbe
    exact buyer_seller_idx_ne hid hb hs (hbe.trans he)
  rw [hTr, htq]
  refine ⟨?_, ?_, ?_, ?_⟩
  · rw [List.filter_append, hfilter_sell_sell, hfilter_sell_buy, List.append_nil]
    exact hsell_sum
  · rw [List.filter_append, hfilter_buy_buy, hfilter_buy_sell, List.nil_append]
    exact hbuy_sum
  · intro t ht
    rcases List.mem_append.mp ht with h | h
    · exact (upAlloc_mem p _ q t h).1
    · exact (upAlloc_mem p _ q t h).1
  · rw [List.map_append, List.sum_append, hsell_sum, hbuy_sum]
    ring

/-- C10 (witness): the worked example clears 10 units at 0.25; its ledger has
seller-side sum 10, buyer-side sum 10, all tags -1 and total 20. -/
theorem uniform_price_double_entry_ledger_witness :
    (((uniform_price_mechanism exBids).1.filter
        (fun t => (sellersOf exBids).any (fun b => b.idx = t.bid))).map Txn.quantity).sum = 10
    ∧ (((uniform_price_mechanism exBids).1.filter
        (fun t => (buyersOf exBids).any (fun b => b.idx = t.bid))).map Txn.quantity).sum = 10
    ∧ (∀ t ∈ (uniform_price_mechanism exBids).1, t.source = -1)
    ∧ (((uniform_price_mechanism exBids).1.map Txn.quantity).sum = 2 * 10) :=
  uniform_price_double_entry_ledger exBids 10 (1/4)
    (by norm_num [exBids])
    (by norm_num [exBids])
    exBids_clearing

/-! ### Claim C2: the pairwise matching loop over-allocates a buyer -/

/-- Bids for a round whose residual phase over-allocates: one buyer (id 1,
quantity 10 at 0.30) and three sellers (id 2: 2 at 0.10, id 3: 4 at 0.40,
id 4: 8 at 0.45).  The primary clearing trades 2 units at 0.10; the NBS
residual then matches the buyer against sellers id 3 and id 4 using the
buyer's stale snapshot quantity. -/
def nbsBids : List Bid :=
  [⟨1, true, 10, 3/10⟩, ⟨2, false, 2, 1/10⟩, ⟨3, false, 4, 2/5⟩, ⟨4, false, 8, 9/20⟩]

/-- Uncovered bids of `nbsBids` after its primary clearing. -/
def nbsUnc : List Bid := [⟨1, true, 8, 3/10⟩, ⟨3, false, 4, 2/5⟩, ⟨4, false, 8, 9/20⟩]

/-- The primary ledger of `nbsBids`. -/
def nbsT0 : List Txn := [⟨2, 2, 1/10, -1, false⟩, ⟨1, 2, 1/10, -1, false⟩]

/-- Frame state after the buyer is matched with seller id 3. -/
def nbsL1 : List Bid := [⟨1, true, 4, 3/10⟩, ⟨3, false, 0, 2/5⟩, ⟨4, false, 8, 9/20⟩]

def nbsT1 : List Txn := nbsT0 ++ [⟨1, 4, 1/10, -1, false⟩, ⟨3, 4, 1/10, -1, false⟩]

/-- Frame state after the buyer is also matched with seller id 4 for its full
stale quantity 8: the buyer's remaining quantity is −4. -/
def nbsL2 : List Bid := [⟨1, true, -4, 3/10⟩, ⟨3, false, 0, 2/5⟩, ⟨4, false, 0, 9/20⟩]

def nbsT2 : List Txn := nbsT1 ++ [⟨1, 8, 1/10, -1, false⟩, ⟨4, 8, 1/10, -1, false⟩]

lemma nbsBids_up :
    uniform_price_mechanism nbsBids = (nbsT0, ⟨2, some (1/10)⟩) := by
  norm_num [uniform_price_mechanism, find_clearing_price_and_quantity, candidatePrices,
    nbsBids, nbsT0, List.dedup, List.insertionSort, List.orderedInsert, scanBest, tradedAt,
    demandAt, supplyAt, buyersOf, sellersOf, List.filter, upBuyersAt, upSellersAt,
    sortPriceAsc, sortPriceDesc, sumQ, upAlloc, round4, round_eq]

lemma nbs_step1 :
    pairStep (fun _ _ => (1/10 : ℚ)) 1 8 (false, nbsUnc, nbsT0) ⟨3, false, 4, 2/5⟩ =
      (false, nbsL1, nbsT1) := by
  simp only [pairStep, nbsUnc, nbsT0, nbsL1, nbsT1]
  norm_num [qtyAt, decrementBid]

lemma nbs_step2 :
    pairStep (fun _ _ => (1/10 : ℚ)) 1 8 (false, nbsL1, nbsT1) ⟨4, false, 8, 9/20⟩ =
      (false, nbsL2, nbsT2) := by
  simp only [pairStep, nbsL1, nbsT1, nbsL2, nbsT2, nbsT0]
  norm_num [qtyAt, decrementBid]

lemma nbs_outer :
    pairOuter (fun _ _ => (1/10 : ℚ)) nbsUnc (nbsUnc, nbsT0) = (nbsL2, nbsT2) := by
  have hsell : sellersOf nbsUnc = [⟨3, false, 4, 2/5⟩, ⟨4, false, 8, 9/20⟩] := by
    norm_num [sellersOf, nbsUnc, List.filter]
  show pairOuter (fun _ _ => (1/10 : ℚ))
      (⟨1, true, 8, 3/10⟩ :: [⟨3, false, 4, 2/5⟩, ⟨4, false, 8, 9/20⟩]) (nbsUnc, nbsT0) = _
  rw [pairOuter]
  simp only [hsell, pairInner, List.foldl, nbs_step1, nbs_step2]
  norm_num [pairOuter]

lemma nbs_ipa : ipaLoop (1/10) 1 0 1 (9/20) (3/10) 2 (1/10) = some (1/10) := by
  norm_num [ipaLoop, ipaStep, abs_lt]

lemma nbsBids_resid :
    nash_bargaining_solution nbsUnc nbsT0 1 0 (1/10) 1 (1/10) 2 =
      some (nbsL2, nbsT2, 1/10) := by
  rw [nash_bargaining_solution]
  have hmax : listMax (nbsUnc.map Bid.price) = 9/20 := by
    norm_num [listMax, nbsUnc, List.map, List.foldl]
  have hmin : listMin (nbsUnc.map Bid.price) = 3/10 := by
    norm_num [listMin, nbsUnc, List.map, List.foldl]
  rw [hmax, hmin, nbs_ipa]
  simp only [nbs_outer]

lemma nbsBids_eval :
    two_steps_NBS_mechanism 1 0 (1/10) 1 2 nbsBids =
    some ⟨nbsT2, 2, some (1/10), -4, some (1/10), -2⟩ := by
  rw [two_steps_NBS_mechanism, twoStep, nbsBids_up]
  have hUP : bidsUPOf nbsBids =
      [⟨1, true, 8, 3/10⟩, ⟨2, false, 0, 1/10⟩, ⟨3, false, 4, 2/5⟩, ⟨4, false, 8, 9/20⟩] := by
    rw [bidsUPOf, nbsBids_up]
    norm_num [applyTxns, nbsBids, nbsT0, List.foldl, decrementBid]
  have hunc : uncoveredOf nbsBids = nbsUnc := by
    rw [uncoveredOf, hUP]
    norm_num [List.filter, nbsUnc]
  have hguard : (0 : ℚ) < unsoldOf nbsBids ∧ (0 : ℚ) < demandedOf nbsBids := by
    rw [unsoldOf, demandedOf, hUP]
    norm_num [sumQ, sellersOf, buyersOf, List.filter]
  rw [if_pos hguard, hunc]
  simp only []
  rw [nbsBids_resid]
  norm_num [sumQ, nbsL2]

/-- C2: the round's ledger records 14 units against buyer id 1, whose
original quantity is 10 — the pairwise residual loop (here NBS; CGT, CGTS and
VCG share it) sizes each match by the buyer row's stale `iterrows` snapshot
instead of the live remaining quantity, so a buyer can be over-allocated and
its remaining quantity driven negative. -/
theorem nbs_overallocates_buyer_on_stale_row :
    (two_steps_NBS_mechanism 1 0 (1/10) 1 2 nbsBids).map
      (fun s => ((s.trans.filter (fun t => t.bid = 1)).map Txn.quantity).sum) = some 14
    ∧ ((nbsBids.filter (fun b => b.idx = 1)).map Bid.quantity).sum = 10
    ∧ (10 : ℚ) < 14 := by
  rw [nbsBids_eval]
  norm_num [List.filter, nbsT2, nbsT1, nbsT0, nbsBids]

/-! ### Claims C3, C4, C5: the CFRM residual phase on concrete rounds -/

/-- Equal-quantity uncovered round: buy(id 1, qty 4 at 0.50) against
sell(id 2, qty 4 at 0.90).  No primary intersection exists, so the whole set
reaches the CFRM residual, which trades at the unclipped midpoint 0.70. -/
def cfrmBids3 : List Bid := [⟨1, true, 4, 1/2⟩, ⟨2, false, 4, 9/10⟩]

/-- Unequal-quantity uncovered round: buy(id 1, qty 4 at 0.50) against
sell(id 2, qty 12 at 0.90). -/
def cfrmBids4 : List Bid := [⟨1, true, 4, 1/2⟩, ⟨2, false, 12, 9/10⟩]

lemma cfrmBids3_up : uniform_price_mechanism cfrmBids3 = ([], ⟨0, none⟩) := by
  norm_num [uniform_price_mechanism, find_clearing_price_and_quantity, candidatePrices,
    cfrmBids3, List.dedup, List.insertionSort, List.orderedInsert, scanBest, tradedAt,
    demandAt, supplyAt, buyersOf, sellersOf, List.filter]

lemma cfrmBids4_up : uniform_price_mechanism cfrmBids4 = ([], ⟨0, none⟩) := by
  norm_num [uniform_price_mechanism, find_clearing_price_and_quantity, candidatePrices,
    cfrmBids4, List.dedup, List.insertionSort, List.orderedInsert, scanBest, tradedAt,
    demandAt, supplyAt, buyersOf, sellersOf, List.filter]

lemma cfrmBids3_resid :
    cap_and_floor_range_midpoint cfrmBids3 [] =
      ([⟨1, true, 0, 1/2⟩, ⟨2, false, 4, 9/10⟩], [⟨1, 4, 7/10, -1, false⟩], 7/10) := by
  rw [cap_and_floor_range_midpoint]
  norm_num [cfrmBids3, buyersOf, sellersOf, List.filter, sortPriceAsc, sortPriceDesc,
    List.insertionSort, List.orderedInsert, longShort, sumQ, cfrmMidpointPrice, listMean,
    allocShort, allocLong, decrementBid]

lemma cfrmBids4_resid :
    cap_and_floor_range_midpoint cfrmBids4 [] =
      ([⟨1, true, 0, 1/2⟩, ⟨2, false, 12, 9/10⟩], [⟨1, 4, 7/10, -1, false⟩], 7/10) := by
  rw [cap_and_floor_range_midpoint]
  norm_num [cfrmBids4, buyersOf, sellersOf, List.filter, sortPriceAsc, sortPriceDesc,
    List.insertionSort, List.orderedInsert, longShort, sumQ, cfrmMidpointPrice, listMean,
    allocShort, allocLong, decrementBid]

lemma cfrmBids3_eval :
    two_steps_CFRM_mechanism (1/10) (1/4) cfrmBids3 =
      some ⟨[⟨1, 4, 7/10, -1, false⟩], 0, none, 4, some (7/10), 4⟩ := by
  rw [two_steps_CFRM_mechanism, twoStep, cfrmBids3_up]
  have hUP : bidsUPOf cfrmBids3 = cfrmBids3 := by
    rw [bidsUPOf, cfrmBids3_up]; rfl
  have hunc : uncoveredOf cfrmBids3 = cfrmBids3 := by
    rw [uncoveredOf, hUP]
    norm_num [List.filter, cfrmBids3]
  have hguard : (0 : ℚ) < unsoldOf cfrmBids3 ∧ (0 : ℚ) < demandedOf cfrmBids3 := by
    rw [unsoldOf, demandedOf, hUP]
    norm_num [sumQ, sellersOf, buyersOf, cfrmBids3, List.filter]
  rw [if_pos hguard, hunc]
  simp only []
  rw [cfrmBids3_resid]
  norm_num [sumQ]

lemma cfrmBids4_eval :
    two_steps_CFRM_mechanism (1/10) (1/4) cfrmBids4 =
      some ⟨[⟨1, 4, 7/10, -1, false⟩], 0, none, 12, some (7/10), 12⟩ := by
  rw [two_steps_CFRM_mechanism, twoStep, cfrmBids4_up]
  have hUP : bidsUPOf cfrmBids4 = cfrmBids4 := by
    rw [bidsUPOf, cfrmBids4_up]; rfl
  have hunc : uncoveredOf cfrmBids4 = cfrmBids4 := by
    rw [uncoveredOf, hUP]
    norm_num [List.filter, cfrmBids4]
  have hguard : (0 : ℚ) < unsoldOf cfrmBids4 ∧ (0 : ℚ) < demandedOf cfrmBids4 := by
    rw [unsoldOf, demandedOf, hUP]
    norm_num [sumQ, sellersOf, buyersOf, cfrmBids4, List.filter]
  rw [if_pos hguard, hunc]
  simp only []
  rw [cfrmBids4_resid]
  norm_num [sumQ]

/-- C3 (counterexample): with the configured bounds FIT = 0.10 and
TOU = 0.25, the CFRM residual records a transaction at the unclipped midpoint
price 0.70, which lies outside [0.10, 0.25] — no clipping happens. -/
theorem cfrm_price_escapes_bounds :
    (two_steps_CFRM_mechanism (1/10) (1/4) cfrmBids3).map (fun s => s.trans) =
      some [⟨1, 4, 7/10, -1, false⟩]
    ∧ ¬ ((1 : ℚ)/10 ≤ 7/10 ∧ (7 : ℚ)/10 ≤ 1/4) := by
  rw [cfrmBids3_eval]
  norm_num

/-- C4: the long-side loop never executes — the short side (buyer id 1, 4
units) is fully traded, yet the long side (seller id 2, 12 units) receives no
transaction at all, because the loop's guard reads `traded_quantity`, which
the short-side loop has already counted down to zero.  The claim's
min(4, 12) = 4 is traded on the short side only; the long side gets 0.
(UPNR's long-side loop, guarded by `quantity_added` instead, shows the
intended behaviour.) -/
theorem cfrm_long_side_receives_no_allocation :
    two_steps_CFRM_mechanism (1/10) (1/4) cfrmBids4 =
      some ⟨[⟨1, 4, 7/10, -1, false⟩], 0, none, 12, some (7/10), 12⟩
    ∧ (([⟨1, 4, 7/10, -1, false⟩] : List Txn).filter (fun t => t.bid = 2)).length = 0
    ∧ min ((4 : ℚ)) 12 = 4 ∧ ((0 : ℚ)) ≠ 4 := by
  refine ⟨cfrmBids4_eval, ?_, ?_, ?_⟩ <;> norm_num [List.filter]

/-- C5 (counterexample): the round summary's `CFRM quantity` entry is 12 —
`bidsM.quantity.sum()`, the quantity REMAINING in the uncovered frame — while
the quantity actually traded in the residual phase is 4. -/
theorem cfrm_reported_residual_quantity_mismatch :
    (two_steps_CFRM_mechanism (1/10) (1/4) cfrmBids4).map (fun s => s.residQuantity) =
      some 12
    ∧ (((two_steps_CFRM_mechanism (1/10) (1/4) cfrmBids4).map
        (fun s => ((s.trans.filter (fun t => t.bid = 1)).map Txn.quantity).sum)) = some 4)
    ∧ ((12 : ℚ)) ≠ 4 := by
  rw [cfrmBids4_eval]
  norm_num [List.filter]

/-- Transactions appended by the short-side loop all carry the loop's
constant price. -/
lemma allocShort_const_price (P : ℚ) :
    ∀ (l : List Bid) (unc : List Bid) (tr : List Txn) (traded : ℚ),
      ∃ added, (allocShort (fun _ => P) l (unc, tr, traded)).2.1 = tr ++ added
        ∧ ∀ t ∈ added, t.price = P
  | [], unc, tr, traded => ⟨[], by rw [allocShort, List.append_nil], fun t ht => by cases ht⟩
  | x :: rest, unc, tr, traded => by
    rw [allocShort]
    by_cases h : traded ≤ 0
    · exact ⟨[], by rw [if_pos h, List.append_nil], fun t ht => by cases ht⟩
    · rw [if_neg h]
      rcases allocShort_const_price P rest (decrementBid unc x.idx (min x.quantity traded))
        (tr ++ [⟨x.idx, min x.quantity traded, P, -1, false⟩])
        (traded - min x.quantity traded) with ⟨added, he, hp⟩
      refine ⟨⟨x.idx, min x.quantity traded, P, -1, false⟩ :: added, ?_, ?_⟩
      · rw [he, List.append_assoc]; rfl
      · intro t ht
        rcases List.mem_cons.mp ht with rfl | ht'
        · rfl
        · exact hp t ht'

/-- Transactions appended by the long-side loop all carry the loop's
constant price. -/
lemma allocLong_const_price (P traded : ℚ) :
    ∀ (l : List Bid) (unc : List Bid) (tr : List Txn) (added0 : ℚ),
      ∃ added, (allocLong (fun _ => P) traded l (unc, tr, added0)).2.1 = tr ++ added
        ∧ ∀ t ∈ added, t.price = P
  | [], unc, tr, added0 => ⟨[], by rw [allocLong, List.append_nil], fun t ht => by cases ht⟩
  | x :: rest, unc, tr, added0 => by
    rw [allocLong]
    by_cases h : traded ≤ 0
    · exact ⟨[], by rw [if_pos h, List.append_nil], fun t ht => by cases ht⟩
    · rw [if_neg h]
      rcases allocLong_const_price P traded rest
        (decrementBid unc x.idx (min x.quantity (traded - added0)))
        (tr ++ [⟨x.idx, min x.quantity (traded - added0), P, -1, false⟩])
        (added0 + min x.quantity (traded - added0)) with ⟨added, he, hp⟩
      refine ⟨⟨x.idx, min x.quantity (traded - added0), P, -1, false⟩ :: added, ?_, ?_⟩
      · rw [he, List.append_assoc]; rfl
      · intro t ht
        rcases List.mem_cons.mp ht with rfl | ht'
        · rfl
        · exact hp t ht'

/-- Every transaction the CFRM residual step appends is priced at the
unclipped midpoint. -/
lemma cfrm_trans_prices (unc : List Bid) (tr : List Txn) :
    ∃ added, (cap_and_floor_range_midpoint unc tr).2.1 = tr ++ added
      ∧ ∀ t ∈ added, t.price = cfrmMidpointPrice unc := by
  rw [cap_and_floor_range_midpoint]
  simp only []
  rcases allocShort_const_price (cfrmMidpointPrice unc)
    ((longShort (sortPriceDesc (buyersOf unc)) (sortPriceAsc (sellersOf unc))).2)
    unc tr (sumQ ((longShort (sortPriceDesc (buyersOf unc)) (sortPriceAsc (sellersOf unc))).2))
    with ⟨a1, he1, hp1⟩
  rcases allocLong_const_price (cfrmMidpointPrice unc) _
    ((longShort (sortPriceDesc (buyersOf unc)) (sortPriceAsc (sellersOf unc))).1)
    _ _ 0 with ⟨a2, he2, hp2⟩
  refine ⟨a1 ++ a2, ?_, ?_⟩
  · rw [he2, he1, List.append_assoc]
  · intro t ht
    rcases List.mem_append.mp ht with h | h
    · exact hp1 t h
    · exact hp2 t h

/-- Every transaction the MPAS residual step appends is priced at the
unclipped spread-adjusted price. -/
lemma mpas_trans_prices (unc : List Bid) (tr : List Txn) (alpha : ℚ) :
    ∃ added, (marginal_price_adjusted_by_spread unc tr alpha).2 = tr ++ added
      ∧ ∀ t ∈ added, t.price = mpasAdjustedPrice unc alpha := by
  rw [marginal_price_adjusted_by_spread]
  simp only []
  rcases allocShort_const_price (mpasAdjustedPrice unc alpha)
    ((longShort (sortPriceDesc (buyersOf unc)) (sortPriceAsc (sellersOf unc))).2)
    unc tr (sumQ ((longShort (sortPriceDesc (buyersOf unc)) (sortPriceAsc (sellersOf unc))).2))
    with ⟨a1, he1, hp1⟩
  rcases allocLong_const_price (mpasAdjustedPrice unc alpha) _
    ((longShort (sortPriceDesc (buyersOf unc)) (sortPriceAsc (sellersOf unc))).1)
    _ _ 0 with ⟨a2, he2, hp2⟩
  refine ⟨a1 ++ a2, ?_, ?_⟩
  · rw [he2, he1, List.append_assoc]
  · intro t ht
    rcases List.mem_append.mp ht with h | h
    · exact hp1 t h
    · exact hp2 t h

/-- C3 (amended): CFRM and MPAS record their residual transactions at the
raw formula price — mean-of-side-means midpoint for CFRM, midpoint plus
`alpha`-scaled spread for MPAS — with NO clipping to the configured
[FIT, TOU] bounds, which both mechanisms accept and ignore. -/
theorem cfrm_mpas_prices_recorded_unclipped :
    (∀ (FIT TOU : ℚ) (bids : List Bid) (s : RoundSummary),
        two_steps_CFRM_mechanism FIT TOU bids = some s →
        ∃ rtx, s.trans = (uniform_price_mechanism bids).1 ++ rtx
          ∧ ∀ t ∈ rtx, t.price = cfrmMidpointPrice (uncoveredOf bids))
    ∧ (∀ (FIT TOU alpha : ℚ) (bids : List Bid) (s : RoundSummary),
        two_steps_MPAS_mechanism FIT TOU alpha bids = some s →
        ∃ rtx, s.trans = (uniform_price_mechanism bids).1 ++ rtx
          ∧ ∀ t ∈ rtx, t.price = mpasAdjustedPrice (uncoveredOf bids) alpha) := by
  constructor
  · intro FIT TOU bids s h
    rw [two_steps_CFRM_mechanism, twoStep] at h
    by_cases hg : (0 : ℚ) < unsoldOf bids ∧ (0 : ℚ) < demandedOf bids
    · rw [if_pos hg] at h
      simp only [] at h
      rw [Option.some_inj] at h
      rcases cfrm_trans_prices (uncoveredOf bids) (uniform_price_mechanism bids).1
        with ⟨added, he, hp⟩
      refine ⟨added, ?_, hp⟩
      rw [← h]
      exact he
    · rw [if_neg hg, Option.some_inj] at h
      refine ⟨[], ?_, fun t ht => by cases ht⟩
      rw [← h, List.append_nil]
  · intro FIT TOU alpha bids s h
    rw [two_steps_MPAS_mechanism, twoStep] at h
    by_cases hg : (0 : ℚ) < unsoldOf bids ∧ (0 : ℚ) < demandedOf bids
    · rw [if_pos hg] at h
      simp only [] at h
      rw [Option.some_inj] at h
      rcases mpas_trans_prices (uncoveredOf bids) (uniform_price_mechanism bids).1 alpha
        with ⟨added, he, hp⟩
      refine ⟨added, ?_, hp⟩
      rw [← h]
      exact he
    · rw [if_neg hg, Option.some_inj] at h
      refine ⟨[], ?_, fun t ht => by cases ht⟩
      rw [← h, List.append_nil]

/-- C3 (witness): the unclipped-price theorem applied to the concrete
equal-quantity round. -/
theorem cfrm_mpas_prices_recorded_unclipped_witness :
    ∃ rtx, (⟨[⟨1, 4, 7/10, -1, false⟩], 0, none, 4, some (7/10), 4⟩ : RoundSummary).trans
        = (uniform_price_mechanism cfrmBids3).1 ++ rtx
      ∧ ∀ t ∈ rtx, t.price = cfrmMidpointPrice (uncoveredOf cfrmBids3) :=
  cfrm_mpas_prices_recorded_unclipped.1 (1/10) (1/4) cfrmBids3
    ⟨[⟨1, 4, 7/10, -1, false⟩], 0, none, 4, some (7/10), 4⟩ cfrmBids3_eval

/-! ### Claim C5: what quantity the round summary reports -/

lemma decrementBid_map_idx (l : List Bid) (i : ℕ) (q : ℚ) :
    (decrementBid l i q).map Bid.idx = l.map Bid.idx := by
  induction l with
  | nil => rfl
  | cons b rest ih =>
    rw [decrementBid, List.map_cons, List.map_cons, List.map_cons]
    rw [decrementBid] at ih
    rw [ih]
    by_cases h : b.idx = i
    · rw [if_pos h]
    · rw [if_neg h]

lemma decrementBid_of_not_mem {l : List Bid} {i : ℕ} (q : ℚ)
    (h : i ∉ l.map Bid.idx) : decrementBid l i q = l := by
  induction l with
  | nil => rfl
  | cons b rest ih =>
    rw [List.map_cons] at h
    rw [decrementBid, List.map_cons]
    rw [if_neg (fun he => h (List.mem_cons.mpr (Or.inl he.symm)))]
    rw [decrementBid] at ih
    rw [ih (fun hm => h (List.mem_cons.mpr (Or.inr hm)))]

lemma decrementBid_sumQ {l : List Bid} {i : ℕ} (q : ℚ)
    (hmem : i ∈ l.map Bid.idx) (hnd : (l.map Bid.idx).Nodup) :
    sumQ (decrementBid l i q) = sumQ l - q := by
  induction l with
  | nil => cases hmem
  | cons b rest ih =>
    rw [List.map_cons] at hmem hnd
    rw [show decrementBid (b :: rest) i q
        = (if b.idx = i then { b with quantity := b.quantity - q } else b)
          :: decrementBid rest i q from rfl]
    rw [sumQ_cons, sumQ_cons]
    by_cases h : b.idx = i
    · have hrest : i ∉ rest.map Bid.idx := fun hm => (List.nodup_cons.mp hnd).1 (h ▸ hm)
      rw [if_pos h, decrementBid_of_not_mem q hrest]
      show b.quantity - q + sumQ rest = b.quantity + sumQ rest - q
      ring
    · have hmem' : i ∈ rest.map Bid.idx := by
        rcases List.mem_cons.mp hmem with he | hm
        · exact absurd he.symm h
        · exact hm
      rw [if_neg h, ih hmem' (List.nodup_cons.mp hnd).2]
      ring

/-- Started with exactly the side's total, the short-side loop drains it:
the counter ends at 0, the frame loses the full total, and the appended
transactions sum to it. -/
lemma allocShort_exhausts (priceOf : Bid → ℚ) :
    ∀ (l : List Bid) (unc : List Bid) (tr : List Txn),
      (∀ x ∈ l, 0 ≤ x.quantity) →
      (∀ x ∈ l, x.idx ∈ unc.map Bid.idx) →
      (unc.map Bid.idx).Nodup →
      (allocShort priceOf l (unc, tr, sumQ l)).2.2 = 0
      ∧ sumQ (allocShort priceOf l (unc, tr, sumQ l)).1 = sumQ unc - sumQ l
      ∧ ∃ added, (allocShort priceOf l (unc, tr, sumQ l)).2.1 = tr ++ added
          ∧ (added.map Txn.quantity).sum = sumQ l
  | [], unc, tr, _, _, _ => by
    rw [allocShort]
    refine ⟨rfl, by rw [show sumQ ([] : List Bid) = 0 from rfl]; ring, [], ?_, rfl⟩
    rw [List.append_nil]
  | x :: rest, unc, tr, hq, hids, hnd => by
    have hx : 0 ≤ x.quantity := hq x (List.mem_cons_self x rest)
    have hrestq : ∀ y ∈ rest, 0 ≤ y.quantity :=
      fun y hy => hq y (List.mem_cons_of_mem x hy)
    have hrests : 0 ≤ sumQ rest := sumQ_nonneg hrestq
    rw [allocShort]
    by_cases h0 : sumQ (x :: rest) ≤ 0
    · rw [if_pos h0]
      have hz : sumQ (x :: rest) = 0 :=
        le_antisymm h0 (by rw [sumQ_cons]; linarith)
      refine ⟨hz, by rw [hz]; ring, [], by rw [List.append_nil], by rw [hz]; rfl⟩
    · rw [if_neg h0]
      dsimp only []
      have hminx : min x.quantity (sumQ (x :: rest)) = x.quantity := by
        rw [min_eq_left]
        rw [sumQ_cons]
        linarith
      have hstep : sumQ (x :: rest) - min x.quantity (sumQ (x :: rest)) = sumQ rest := by
        rw [hminx, sumQ_cons]; ring
      have hids' : ∀ y ∈ rest, y.idx ∈ (decrementBid unc x.idx
          (min x.quantity (sumQ (x :: rest)))).map Bid.idx := by
        intro y hy
        rw [decrementBid_map_idx]
        exact hids y (List.mem_cons_of_mem x hy)
      have hnd' : ((decrementBid unc x.idx
          (min x.quantity (sumQ (x :: rest)))).map Bid.idx).Nodup := by
        rw [decrementBid_map_idx]; exact hnd
      have key := allocShort_exhausts priceOf rest
        (decrementBid unc x.idx (min x.quantity (sumQ (x :: rest))))
        (tr ++ [⟨x.idx, min x.quantity (sumQ (x :: rest)), priceOf x, -1, false⟩])
        hrestq hids' hnd'
      rw [hstep]
      refine ⟨key.1, ?_, ?_⟩
      · rw [key.2.1]
        rw [decrementBid_sumQ _ (hids x (List.mem_cons_self x rest)) hnd]
        rw [hminx, sumQ_cons]
        ring
      · rcases key.2.2 with ⟨added, he, hsum⟩
        refine ⟨⟨x.idx, min x.quantity (sumQ (x :: rest)), priceOf x, -1, false⟩ :: added,
          ?_, ?_⟩
        · rw [he, List.append_assoc]; rfl
        · rw [List.map_cons, List.sum_cons, hsum, hminx, sumQ_cons]

/-- With the counter already at 0, the long-side loop is a no-op. -/
lemma allocLong_zero (priceOf : Bid → ℚ) (l : List Bid)
    (st : List Bid × List Txn × ℚ) : allocLong priceOf 0 l st = st := by
  cases l with
  | nil => rw [allocLong]
  | cons x rest =>
    rcases st with ⟨a, b, c⟩
    rw [allocLong, if_pos (le_refl (0 : ℚ))]

lemma sumQ_split_sides (l : List Bid) :
    sumQ l = sumQ (buyersOf l) + sumQ (sellersOf l) := by
  induction l with
  | nil => norm_num [sumQ, buyersOf, sellersOf]
  | cons b rest ih =>
    rw [sumQ_cons, ih]
    by_cases h : b.buying
    · have h1 : buyersOf (b :: rest) = b :: buyersOf rest := by
        simp [buyersOf, List.filter_cons, h]
      have h2 : sellersOf (b :: rest) = sellersOf rest := by
        simp [sellersOf, List.filter_cons, h]
      rw [h1, h2, sumQ_cons]
      ring
    · have h1 : buyersOf (b :: rest) = buyersOf rest := by
        simp [buyersOf, List.filter_cons, h]
      have h2 : sellersOf (b :: rest) = b :: sellersOf rest := by
        simp [sellersOf, List.filter_cons, h]
      rw [h1, h2, sumQ_cons]
      ring

lemma mem_longShort_snd {A B : List Bid} {y : Bid}
    (h : y ∈ (longShort A B).2) : y ∈ A ∨ y ∈ B := by
  rw [longShort] at h
  by_cases hc : sumQ B < sumQ A
  · rw [if_pos hc] at h; exact Or.inr h
  · rw [if_neg hc] at h; exact Or.inl h

lemma longShort_sums (A B : List Bid) :
    sumQ (longShort A B).2 = min (sumQ A) (sumQ B)
    ∧ sumQ (longShort A B).1 = max (sumQ A) (sumQ B) := by
  rw [longShort]
  by_cases hc : sumQ B < sumQ A
  · rw [if_pos hc]
    exact ⟨(min_eq_right (le_of_lt hc)).symm, (max_eq_left (le_of_lt hc)).symm⟩
  · rw [if_neg hc]
    push_neg at hc
    exact ⟨(min_eq_left hc).symm, (max_eq_right hc).symm⟩

/-- Quantity accounting of one CFRM residual pass: the frame keeps exactly
the long side's aggregate, and the appended transactions sum to the short
side's aggregate. -/
lemma cfrm_residual_accounting (unc : List Bid) (tr : List Txn)
    (hq : ∀ x ∈ unc, 0 < x.quantity) (hnd : (unc.map Bid.idx).Nodup) :
    sumQ (cap_and_floor_range_midpoint unc tr).1
      = max (sumQ (buyersOf unc)) (sumQ (sellersOf unc))
    ∧ ∃ rtx, (cap_and_floor_range_midpoint unc tr).2.1 = tr ++ rtx
        ∧ (rtx.map Txn.quantity).sum
            = min (sumQ (buyersOf unc)) (sumQ (sellersOf unc)) := by
  rw [cap_and_floor_range_midpoint]
  simp only []
  have hmem : ∀ x ∈ (longShort (sortPriceDesc (buyersOf unc))
      (sortPriceAsc (sellersOf unc))).2, x ∈ unc := by
    intro x hx
    rcases mem_longShort_snd hx with h | h
    · exact (List.mem_filter.mp (mem_sortPriceDesc h)).1
    · exact (List.mem_filter.mp (mem_sortPriceAsc h)).1
  have h0 : ∀ x ∈ (longShort (sortPriceDesc (buyersOf unc))
      (sortPriceAsc (sellersOf unc))).2, 0 ≤ x.quantity :=
    fun x hx => le_of_lt (hq x (hmem x hx))
  have hids : ∀ x ∈ (longShort (sortPriceDesc (buyersOf unc))
      (sortPriceAsc (sellersOf unc))).2, x.idx ∈ unc.map Bid.idx :=
    fun x hx => List.mem_map_of_mem Bid.idx (hmem x hx)
  have key := allocShort_exhausts (fun _ => cfrmMidpointPrice unc)
    ((longShort (sortPriceDesc (buyersOf unc)) (sortPriceAsc (sellersOf unc))).2)
    unc tr h0 hids hnd
  rw [key.1, allocLong_zero]
  have hms := longShort_sums (sortPriceDesc (buyersOf unc)) (sortPriceAsc (sellersOf unc))
  rw [sumQ_sortPriceDesc, sumQ_sortPriceAsc] at hms
  constructor
  · rw [key.2.1, hms.1]
    rw [show sumQ unc = sumQ (buyersOf unc) + sumQ (sellersOf unc) from sumQ_split_sides unc]
    have := min_add_max (sumQ (buyersOf unc)) (sumQ (sellersOf unc))
    linarith
  · rcases key.2.2 with ⟨rtx, he, hsum⟩
    exact ⟨rtx, he, by rw [hsum, hms.1]⟩

lemma applyTxns_map_idx (bids : List Bid) (txns : List Txn) :
    (applyTxns bids txns).map Bid.idx = bids.map Bid.idx := by
  induction txns generalizing bids with
  | nil => rfl
  | cons t rest ih =>
    rw [show applyTxns bids (t :: rest)
        = applyTxns (decrementBid bids t.bid t.quantity) rest from rfl]
    rw [ih, decrementBid_map_idx]

lemma uncoveredOf_nodup_idx {bids : List Bid} (hid : (bids.map Bid.idx).Nodup) :
    ((uncoveredOf bids).map Bid.idx).Nodup := by
  have h1 : ((bidsUPOf bids).map Bid.idx).Nodup := by
    rw [bidsUPOf, applyTxns_map_idx]; exact hid
  exact (List.Sublist.map Bid.idx (List.filter_sublist _)).nodup h1

lemma mem_uncovered_pos {bids : List Bid} {x : Bid}
    (h : x ∈ uncoveredOf bids) : 0 < x.quantity := by
  rcases List.mem_filter.mp h with ⟨_, hq⟩
  rw [decide_eq_true_eq] at hq
  exact hq

/-- C5 (amended): whenever the CFRM residual phase runs, the summary's
`CFRM quantity` entry is the quantity left in the uncovered frame — the LONG
side's aggregate, max(B, S) — while the quantity actually traded against the
uncovered bids is min(B, S), recorded on the short side only. -/
theorem residual_summary_reports_remaining_not_traded
    (FIT TOU : ℚ) (bids : List Bid)
    (hid : (bids.map Bid.idx).Nodup)
    (hg : 0 < unsoldOf bids ∧ 0 < demandedOf bids) :
    ∃ s, two_steps_CFRM_mechanism FIT TOU bids = some s
      ∧ s.residQuantity
          = max (sumQ (buyersOf (uncoveredOf bids))) (sumQ (sellersOf (uncoveredOf bids)))
      ∧ ∃ rtx, s.trans = (uniform_price_mechanism bids).1 ++ rtx
          ∧ (rtx.map Txn.quantity).sum
              = min (sumQ (buyersOf (uncoveredOf bids))) (sumQ (sellersOf (uncoveredOf bids))) := by
  have hacc := cfrm_residual_accounting (uncoveredOf bids) (uniform_price_mechanism bids).1
    (fun x hx => mem_uncovered_pos hx) (uncoveredOf_nodup_idx hid)
  rw [two_steps_CFRM_mechanism, twoStep, if_pos hg]
  simp only []
  refine ⟨_, rfl, ?_, ?_⟩
  · exact hacc.1
  · exact hacc.2

/-- C5 (witness): the accounting theorem at the concrete unequal round. -/
theorem residual_summary_reports_remaining_not_traded_witness :
    ∃ s, two_steps_CFRM_mechanism (1/10) (1/4) cfrmBids4 = some s
      ∧ s.residQuantity
          = max (sumQ (buyersOf (uncoveredOf cfrmBids4))) (sumQ (sellersOf (uncoveredOf cfrmBids4)))
      ∧ ∃ rtx, s.trans = (uniform_price_mechanism cfrmBids4).1 ++ rtx
          ∧ (rtx.map Txn.quantity).sum
              = min (sumQ (buyersOf (uncoveredOf cfrmBids4))) (sumQ (sellersOf (uncoveredOf cfrmBids4))) :=
  residual_summary_reports_remaining_not_traded (1/10) (1/4) cfrmBids4
    (by norm_num [cfrmBids4])
    (by
      have hUP : bidsUPOf cfrmBids4 = cfrmBids4 := by
        rw [bidsUPOf, cfrmBids4_up]; rfl
      rw [unsoldOf, demandedOf, hUP]
      norm_num [sumQ, sellersOf, buyersOf, cfrmBids4, List.filter])

/-! ### Claim C6: the shared empty-side fallback -/

lemma sumQ_eq_zero {l : List Bid} (h : ∀ b ∈ l, b.quantity = 0) : sumQ l = 0 := by
  refine List.sum_eq_zero ?_
  intro x hx
  rcases List.mem_map.mp hx with ⟨b, hb, rfl⟩
  exact h b hb

/-- C6: whatever residual step is plugged in, a round whose uncovered bids
have an empty sell side or an empty buy side skips the residual phase
entirely: the ledger stays the primary ledger, the reported residual quantity
is 0 and the reported residual price is the primary clearing price. -/
theorem empty_side_residual_fallback
    (residual : List Bid → List Txn → Option ℚ → Option (List Txn × ℚ × Option ℚ))
    (bids : List Bid)
    (hnn : ∀ b ∈ bidsUPOf bids, 0 ≤ b.quantity)
    (hemp : sellersOf (uncoveredOf bids) = [] ∨ buyersOf (uncoveredOf bids) = []) :
    twoStep residual bids =
      some { trans := (uniform_price_mechanism bids).1,
             upQuantity := (uniform_price_mechanism bids).2.quantity,
             upPrice := (uniform_price_mechanism bids).2.price,
             residQuantity := 0,
             residPrice := (uniform_price_mechanism bids).2.price,
             totalQuantity := (uniform_price_mechanism bids).2.quantity + 0 } := by
  have hguard : ¬ (0 < unsoldOf bids ∧ 0 < demandedOf bids) := by
    rcases hemp with hemp | hemp
    · intro hg
      have hz : unsoldOf bids = 0 := by
        rw [unsoldOf]
        refine sumQ_eq_zero ?_
        intro b hb
        rcases List.mem_filter.mp hb with ⟨hbm, hbs⟩
        by_cases hq : 0 < b.quantity
        · exfalso
          have hbu : b ∈ uncoveredOf bids :=
            List.mem_filter.mpr ⟨hbm, by rw [decide_eq_true_eq]; exact hq⟩
          have : b ∈ sellersOf (uncoveredOf bids) := List.mem_filter.mpr ⟨hbu, hbs⟩
          rw [hemp] at this
          cases this
        · exact le_antisymm (le_of_not_lt hq) (hnn b hbm)
      rw [hz] at hg
      exact absurd hg.1 (lt_irrefl 0)
    · intro hg
      have hz : demandedOf bids = 0 := by
        rw [demandedOf]
        refine sumQ_eq_zero ?_
        intro b hb
        rcases List.mem_filter.mp hb with ⟨hbm, hbs⟩
        by_cases hq : 0 < b.quantity
        · exfalso
          have hbu : b ∈ uncoveredOf bids :=
            List.mem_filter.mpr ⟨hbm, by rw [decide_eq_true_eq]; exact hq⟩
          have : b ∈ buyersOf (uncoveredOf bids) := List.mem_filter.mpr ⟨hbu, hbs⟩
          rw [hemp] at this
          cases this
        · exact le_antisymm (le_of_not_lt hq) (hnn b hbm)
      rw [hz] at hg
      exact absurd hg.2 (lt_irrefl 0)
  rw [twoStep, if_neg hguard]

/-- Fully-cleared round: buyer and seller match exactly in the primary
phase, leaving an empty uncovered frame. -/
def coveredBids : List Bid := [⟨1, true, 5, 1/5⟩, ⟨2, false, 5, 1/5⟩]

lemma coveredBids_up :
    uniform_price_mechanism coveredBids =
      ([⟨2, 5, 1/5, -1, false⟩, ⟨1, 5, 1/5, -1, false⟩], ⟨5, some (1/5)⟩) := by
  norm_num [uniform_price_mechanism, find_clearing_price_and_quantity, candidatePrices,
    coveredBids, List.dedup, List.insertionSort, List.orderedInsert, scanBest, tradedAt,
    demandAt, supplyAt, buyersOf, sellersOf, List.filter, upBuyersAt, upSellersAt,
    sortPriceAsc, sortPriceDesc, sumQ, upAlloc, round4, round_eq]

lemma coveredBids_upd :
    bidsUPOf coveredBids = [⟨1, true, 0, 1/5⟩, ⟨2, false, 0, 1/5⟩] := by
  rw [bidsUPOf, coveredBids_up]
  norm_num [applyTxns, coveredBids, List.foldl, decrementBid]

/-- C6 (witness): a residual step that would trade 99 units is never invoked
on the fully-covered round. -/
theorem empty_side_residual_fallback_witness :
    twoStep (fun _ tr _ => some (tr, 99, none)) coveredBids =
      some { trans := (uniform_price_mechanism coveredBids).1,
             upQuantity := (uniform_price_mechanism coveredBids).2.quantity,
             upPrice := (uniform_price_mechanism coveredBids).2.price,
             residQuantity := 0,
             residPrice := (uniform_price_mechanism coveredBids).2.price,
             totalQuantity := (uniform_price_mechanism coveredBids).2.quantity + 0 } :=
  empty_side_residual_fallback _ coveredBids
    (by rw [coveredBids_upd]; norm_num)
    (by
      rw [uncoveredOf, coveredBids_upd]
      norm_num [sellersOf, List.filter])

/-! ### Claim C7: the Monte-Carlo Shapley mechanism and its randomness -/

lemma findBid_mem : ∀ (l : List Bid) (i : ℕ) (b : Bid), findBid l i = some b → b ∈ l := by
  intro l
  induction l with
  | nil => intro i b h; cases h
  | cons x rest ih =>
    intro i b h
    rw [findBid] at h
    by_cases hx : x.idx = i
    · rw [if_pos hx] at h
      cases h
      exact List.mem_cons_self x rest
    · rw [if_neg hx] at h
      exact List.mem_cons_of_mem x (ih i b h)

lemma findSell_spec : ∀ (l : List Bid) (i : ℕ) (s : Bid),
    findSell l i = some s → s ∈ l ∧ s.buying = false ∧ s.idx = i := by
  intro l
  induction l with
  | nil => intro i s h; cases h
  | cons x rest ih =>
    intro i s h
    rw [findSell] at h
    by_cases hx : (!x.buying && decide (x.idx = i)) = true
    · rw [if_pos hx] at h
      cases h
      rw [Bool.and_eq_true, Bool.not_eq_true', decide_eq_true_eq] at hx
      exact ⟨List.mem_cons_self x rest, hx.1, hx.2⟩
    · rw [if_neg hx] at h
      obtain ⟨hm, hb, hi⟩ := ih i s h
      exact ⟨List.mem_cons_of_mem x hm, hb, hi⟩

lemma mem_locRows {unc : List Bid} {S : List ℕ} {b : Bid}
    (h : b ∈ locRows unc S) : b ∈ unc := by
  rw [locRows] at h
  rcases List.mem_filterMap.mp h with ⟨i, _, hf⟩
  exact findBid_mem unc i b hf

/-- An uncovered frame is well formed when no buy row shares its index with
a sell row — true of every frame the two-step pipeline passes down, since
pandas frames carry a unique index. -/
def wellFormedSides (l : List Bid) : Prop :=
  ∀ b ∈ l, ∀ s ∈ l, b.buying = true → s.buying = false → b.idx ≠ s.idx

lemma welfare_locRows_zero (unc : List Bid) (hwf : wellFormedSides unc)
    (S : List ℕ) : calculate_welfare (locRows unc S) = 0 := by
  rw [calculate_welfare]
  have hnil : ((locRows unc S).filter (fun b => b.buying)).filterMap (fun b =>
      match findSell (locRows unc S) b.idx with
      | some s => some (b.price - s.price)
      | none => none) = [] := by
    rw [List.filterMap_eq_nil_iff]
    intro b hb
    rcases List.mem_filter.mp hb with ⟨hbm, hbb⟩
    cases hfs : findSell (locRows unc S) b.idx with
    | none => rfl
    | some s =>
      exfalso
      obtain ⟨hsm, hsb, hsi⟩ := findSell_spec _ _ _ hfs
      exact (hwf b (mem_locRows hbm) s (mem_locRows hsm) hbb hsb) hsi.symm
  rw [hnil, List.sum_nil]

lemma shapUpdate_zero (f : ℕ → ℚ) (p : ℕ) : shapUpdate f p 0 = f := by
  funext x
  show (if x = p then f x + 0 else f x) = f x
  by_cases h : x = p
  · rw [if_pos h, add_zero]
  · rw [if_neg h]

lemma cgtsSample_const (unc : List Bid) (hwf : wellFormedSides unc) (n : ℕ) :
    ∀ (order S : List ℕ) (f : ℕ → ℚ), cgtsSample unc n order S f = f := by
  intro order
  induction order with
  | nil => intro S f; rfl
  | cons p rest ih =>
    intro S f
    rw [show cgtsSample unc n (p :: rest) S f =
        cgtsSample unc n rest (S ++ [p])
          (shapUpdate f p ((calculate_welfare (locRows unc (S ++ [p])) -
            (if S.isEmpty then 0 else calculate_welfare (locRows unc S))) / (n : ℚ)))
      from rfl]
    rw [ih]
    rw [welfare_locRows_zero unc hwf (S ++ [p])]
    have hW : (if S.isEmpty then 0 else calculate_welfare (locRows unc S)) = 0 := by
      by_cases hS : S.isEmpty
      · rw [if_pos hS]
      · rw [if_neg hS, welfare_locRows_zero unc hwf]
    rw [hW]
    have hz : ((0 : ℚ) - 0) / (n : ℚ) = 0 := by norm_num
    rw [hz]
    exact shapUpdate_zero f p

lemma cgtsShapley_const (unc : List Bid) (hwf : wellFormedSides unc) (n : ℕ)
    (shuffles : List (List ℕ)) : cgtsShapley unc n shuffles = fun _ => 0 := by
  rw [cgtsShapley]
  have aux : ∀ (l : List (List ℕ)) (f : ℕ → ℚ),
      l.foldl (fun f order => cgtsSample unc n order [] f) f = f := by
    intro l
    induction l with
    | nil => intro f; rfl
    | cons o rest ih =>
      intro f
      rw [List.foldl_cons, cgtsSample_const unc hwf n o [] f]
      exact ih f
  exact aux shuffles _

/-- C7: on a well-formed uncovered frame the Monte-Carlo Shapley mechanism
returns the same result for ANY two sequences of random orderings — the
index-aligned welfare function is identically zero, so every Shapley estimate
is zero and the randomness (seeded or not) cannot influence the output. -/
theorem cgts_output_independent_of_orderings
    (unc : List Bid) (trans : List Txn) (cap floor_p : ℚ) (n : ℕ)
    (s1 s2 : List (List ℕ))
    (hwf : wellFormedSides unc) :
    cooperative_game_theory_shapley_monte_carlo unc trans cap floor_p n s1 =
      cooperative_game_theory_shapley_monte_carlo unc trans cap floor_p n s2 := by
  unfold cooperative_game_theory_shapley_monte_carlo
  rw [cgtsShapley_const unc hwf n s1, cgtsShapley_const unc hwf n s2]

/-- A minimal well-formed uncovered frame: one buyer, one seller. -/
def cgtsUnc : List Bid := [⟨1, true, 1, 1/2⟩, ⟨2, false, 1, 3/10⟩]

/-- C7 (witness): two opposite orderings of the two participants produce the
same mechanism output. -/
theorem cgts_output_independent_of_orderings_witness :
    cooperative_game_theory_shapley_monte_carlo cgtsUnc [] 1 0 1 [[1, 2]] =
      cooperative_game_theory_shapley_monte_carlo cgtsUnc [] 1 0 1 [[2, 1]] :=
  cgts_output_independent_of_orderings cgtsUnc [] 1 0 1 [[1, 2]] [[2, 1]]
    (by unfold wellFormedSides cgtsUnc; decide)

/-- C7 (counterexample): the mechanism's declared parameter list carries no
`seed` parameter — the orderings come from the process-global `random`
module — while `num_samples` is declared. -/
theorem cgts_signature_has_no_seed :
    ("seed" ∉ cgtsParamNames) ∧ "num_samples" ∈ cgtsParamNames := by
  refine ⟨?_, ?_⟩ <;> simp [cgtsParamNames]

/-! ### Claim C8: UPNR rejects out-of-bounds equilibrium prices -/

/-- C8: when the damped Newton iteration converges to a price strictly above
`TOU` or strictly below `FIT`, the Newton-Raphson residual mechanism leaves
the ledger and the uncovered frame untouched and reports zero residual
traded quantity — it rejects the round instead of clipping the price. -/
theorem upnr_rejects_out_of_bounds_price
    (bids_uncovered : List Bid) (trans : List Txn) (FIT TOU : ℚ)
    (h : TOU < find_equilibrium_newton_raphson
           (sortPriceDesc (buyersOf bids_uncovered))
           (sortPriceAsc (sellersOf bids_uncovered))
           (min (sumQ (sortPriceAsc (sellersOf bids_uncovered)))
                (sumQ (sortPriceDesc (buyersOf bids_uncovered))))
       ∨ find_equilibrium_newton_raphson
           (sortPriceDesc (buyersOf bids_uncovered))
           (sortPriceAsc (sellersOf bids_uncovered))
           (min (sumQ (sortPriceAsc (sellersOf bids_uncovered)))
                (sumQ (sortPriceDesc (buyersOf bids_uncovered)))) < FIT) :
    (newton_raphson_adjustment bids_uncovered trans FIT TOU).trans = trans
      ∧ (newton_raphson_adjustment bids_uncovered trans FIT TOU).qty = 0
      ∧ (newton_raphson_adjustment bids_uncovered trans FIT TOU).unc = bids_uncovered := by
  simp only [newton_raphson_adjustment]
  rw [if_pos h]
  exact ⟨rfl, rfl, rfl⟩

/-- An uncovered frame whose equilibrium price lands above the default
ceiling: one buyer at 0.5, one seller at 0.9 (the converged price is
0.6399). -/
def nrBids : List Bid := [⟨1, true, 5, 1/2⟩, ⟨2, false, 5, 9/10⟩]

set_option maxRecDepth 10000 in
set_option maxHeartbeats 3200000 in
/-- C8 (witness): the Newton iteration on `nrBids` converges above
`TOU = 0.25` and the residual mechanism rejects. -/
theorem upnr_rejects_out_of_bounds_price_witness :
    (newton_raphson_adjustment nrBids [] (1/10) (1/4)).trans = ([] : List Txn)
      ∧ (newton_raphson_adjustment nrBids [] (1/10) (1/4)).qty = 0
      ∧ (newton_raphson_adjustment nrBids [] (1/10) (1/4)).unc = nrBids :=
  upnr_rejects_out_of_bounds_price nrBids [] (1/10) (1/4)
    (Or.inl (by
      norm_num [find_equilibrium_newton_raphson, findEqGo, numerical_derivative,
        numericalDerivativeGo, fprice, nrPriceAt, listMean, nrBids, buyersOf, sellersOf,
        sortPriceAsc, sortPriceDesc, List.insertionSort, List.orderedInsert, List.filter,
        sumQ, round4, round_eq]))

/-! ### Claim C9: termination of the shared convergence loop -/

lemma ipaStep_eq (theta lo hi pmax pmin p : ℚ) :
    ipaStep theta lo hi pmax pmin p = max lo (min (p + theta * (pmax - pmin) / 2) hi) := by
  have h : p + theta * ((pmax - p) + (p - pmin)) / 2 = p + theta * (pmax - pmin) / 2 := by
    ring
  rw [ipaStep, h]

lemma ipaStep_le_hi (theta lo hi pmax pmin p : ℚ) (hlh : lo ≤ hi) :
    ipaStep theta lo hi pmax pmin p ≤ hi := by
  rw [ipaStep_eq]
  exact max_le hlh (min_le_right _ _)

lemma lo_le_ipaStep (theta lo hi pmax pmin p : ℚ) :
    lo ≤ ipaStep theta lo hi pmax pmin p := by
  rw [ipaStep_eq]
  exact le_max_left _ _

lemma le_ipaStep (theta lo hi pmax pmin p : ℚ)
    (ht : 0 ≤ theta) (hmm : pmin ≤ pmax) (hp : p ≤ hi) :
    p ≤ ipaStep theta lo hi pmax pmin p := by
  rw [ipaStep_eq]
  have hc : 0 ≤ theta * (pmax - pmin) / 2 :=
    div_nonneg (mul_nonneg ht (by linarith)) (by norm_num)
  have h1 : p ≤ p + theta * (pmax - pmin) / 2 := by linarith
  exact le_trans (le_min h1 hp) (le_max_right lo _)

lemma ipaLoop_terminates_aux (theta epsilon lo hi pmax pmin : ℚ)
    (ht : 0 ≤ theta) (he : 0 < epsilon) (hmm : pmin ≤ pmax) (hlh : lo ≤ hi) :
    ∀ (n : ℕ) (p : ℚ), p ≤ hi → hi - p ≤ (n : ℚ) * epsilon →
      ∃ q, ipaLoop theta epsilon lo hi pmax pmin (n + 1) p = some q := by
  intro n
  induction n with
  | zero =>
    intro p hp hb
    refine ⟨p, ?_⟩
    rw [show ipaLoop theta epsilon lo hi pmax pmin (0 + 1) p =
        (if |ipaStep theta lo hi pmax pmin p - p| < epsilon then some p
         else ipaLoop theta epsilon lo hi pmax pmin 0 (ipaStep theta lo hi pmax pmin p))
      from rfl]
    have hb0 : hi - p ≤ 0 := by simpa using hb
    have hph : p = hi := le_antisymm hp (by linarith)
    have hc : 0 ≤ theta * (pmax - pmin) / 2 :=
      div_nonneg (mul_nonneg ht (by linarith)) (by norm_num)
    have hstep : ipaStep theta lo hi pmax pmin p = p := by
      rw [ipaStep_eq, hph]
      rw [min_eq_right (by linarith : hi ≤ hi + theta * (pmax - pmin) / 2)]
      exact max_eq_right hlh
    rw [if_pos (by rw [hstep, sub_self, abs_zero]; exact he)]
  | succ n ih =>
    intro p hp hb
    by_cases hconv : |ipaStep theta lo hi pmax pmin p - p| < epsilon
    · refine ⟨p, ?_⟩
      rw [show ipaLoop theta epsilon lo hi pmax pmin (n + 1 + 1) p =
          (if |ipaStep theta lo hi pmax pmin p - p| < epsilon then some p
           else ipaLoop theta epsilon lo hi pmax pmin (n + 1) (ipaStep theta lo hi pmax pmin p))
        from rfl]
      rw [if_pos hconv]
    · have hple : p ≤ ipaStep theta lo hi pmax pmin p := le_ipaStep theta lo hi pmax pmin p ht hmm hp
      have hnph : ipaStep theta lo hi pmax pmin p ≤ hi := ipaStep_le_hi theta lo hi pmax pmin p hlh
      have habs : epsilon ≤ ipaStep theta lo hi pmax pmin p - p := by
        rw [abs_of_nonneg (by linarith : (0:ℚ) ≤ ipaStep theta lo hi pmax pmin p - p)] at hconv
        linarith [not_lt.mp hconv]
      have hb' : hi - ipaStep theta lo hi pmax pmin p ≤ (n : ℚ) * epsilon := by
        push_cast at hb ⊢
        linarith
      obtain ⟨q, hq⟩ := ih (ipaStep theta lo hi pmax pmin p) hnph hb'
      refine ⟨q, ?_⟩
      rw [show ipaLoop theta epsilon lo hi pmax pmin (n + 1 + 1) p =
          (if |ipaStep theta lo hi pmax pmin p - p| < epsilon then some p
           else ipaLoop theta epsilon lo hi pmax pmin (n + 1) (ipaStep theta lo hi pmax pmin p))
        from rfl]
      rw [if_neg hconv]
      exact hq

lemma ipaLoop_some_stop (theta epsilon lo hi pmax pmin : ℚ) :
    ∀ (n : ℕ) (p q : ℚ), ipaLoop theta epsilon lo hi pmax pmin n p = some q →
      |ipaStep theta lo hi pmax pmin q - q| < epsilon := by
  intro n
  induction n with
  | zero => intro p q h; cases h
  | succ n ih =>
    intro p q h
    rw [show ipaLoop theta epsilon lo hi pmax pmin (n + 1) p =
        (if |ipaStep theta lo hi pmax pmin p - p| < epsilon then some p
         else ipaLoop theta epsilon lo hi pmax pmin n (ipaStep theta lo hi pmax pmin p))
      from rfl] at h
    by_cases hc : |ipaStep theta lo hi pmax pmin p - p| < epsilon
    · rw [if_pos hc] at h
      cases h
      exact hc
    · rw [if_neg hc] at h
      exact ih _ q h

lemma foldl_min_le_init : ∀ (xs : List ℚ) (x : ℚ), xs.foldl min x ≤ x := by
  intro xs
  induction xs with
  | nil => intro x; exact le_refl x
  | cons y ys ih =>
    intro x
    rw [List.foldl_cons]
    exact le_trans (ih (min x y)) (min_le_left x y)

lemma init_le_foldl_max : ∀ (xs : List ℚ) (x : ℚ), x ≤ xs.foldl max x := by
  intro xs
  induction xs with
  | nil => intro x; exact le_refl x
  | cons y ys ih =>
    intro x
    rw [List.foldl_cons]
    exact le_trans (le_max_left x y) (ih (max x y))

lemma listMin_le_listMax (l : List ℚ) (h : l ≠ []) : listMin l ≤ listMax l := by
  cases l with
  | nil => exact absurd rfl h
  | cons x xs =>
    rw [listMin, listMax]
    exact le_trans (foldl_min_le_init xs x) (init_le_foldl_max xs x)

lemma iter_some_of_loop_some (bids_uncovered : List Bid) (trans : List Txn)
    (theta epsilon MP FIT TOU : ℚ) (fuel : ℕ) (q : ℚ)
    (h : ipaLoop theta epsilon FIT TOU (listMax (bids_uncovered.map Bid.price))
           (listMin (bids_uncovered.map Bid.price)) fuel MP = some q) :
    ∃ r, iterative_price_adjustment bids_uncovered trans theta epsilon MP FIT TOU fuel
      = some r := by
  simp only [iterative_price_adjustment]
  rw [h]
  exact ⟨_, rfl⟩

/-- C9: on a non-empty uncovered frame, with step fraction `0 < θ < 1`,
tolerance `ε > 0` and bounds `FIT ≤ TOU`, the shared convergence loop of
IPA/NBS stops after finitely many iterations — some finite fuel makes it
return a price whose next clipped update moves by less than `ε` — and with
that fuel the IPA residual mechanism as a whole returns a result. -/
theorem ipa_adjustment_loop_terminates
    (bids_uncovered : List Bid) (trans : List Txn)
    (theta epsilon MP FIT TOU : ℚ)
    (hne : bids_uncovered ≠ [])
    (ht0 : 0 < theta) (ht1 : theta < 1) (he : 0 < epsilon) (hft : FIT ≤ TOU) :
    ∃ (fuel : ℕ) (q : ℚ),
      ipaLoop theta epsilon FIT TOU (listMax (bids_uncovered.map Bid.price))
        (listMin (bids_uncovered.map Bid.price)) fuel MP = some q
      ∧ |ipaStep theta FIT TOU (listMax (bids_uncovered.map Bid.price))
          (listMin (bids_uncovered.map Bid.price)) q - q| < epsilon
      ∧ ∃ r, iterative_price_adjustment bids_uncovered trans theta epsilon MP FIT TOU fuel
          = some r := by
  have hmm : listMin (bids_uncovered.map Bid.price) ≤ listMax (bids_uncovered.map Bid.price) := by
    apply listMin_le_listMax
    intro hm
    exact hne (List.map_eq_nil_iff.mp hm)
  have ht : (0 : ℚ) ≤ theta := le_of_lt ht0
  by_cases h0 : |ipaStep theta FIT TOU (listMax (bids_uncovered.map Bid.price))
      (listMin (bids_uncovered.map Bid.price)) MP - MP| < epsilon
  · refine ⟨1, MP, ?_, h0, ?_⟩
    · rw [show ipaLoop theta epsilon FIT TOU (listMax (bids_uncovered.map Bid.price))
          (listMin (bids_uncovered.map Bid.price)) 1 MP =
          (if |ipaStep theta FIT TOU (listMax (bids_uncovered.map Bid.price))
                (listMin (bids_uncovered.map Bid.price)) MP - MP| < epsilon then some MP
           else ipaLoop theta epsilon FIT TOU (listMax (bids_uncovered.map Bid.price))
             (listMin (bids_uncovered.map Bid.price)) 0
             (ipaStep theta FIT TOU (listMax (bids_uncovered.map Bid.price))
               (listMin (bids_uncovered.map Bid.price)) MP))
        from rfl]
      rw [if_pos h0]
    · exact iter_some_of_loop_some bids_uncovered trans theta epsilon MP FIT TOU 1 MP
        (by
          rw [show ipaLoop theta epsilon FIT TOU (listMax (bids_uncovered.map Bid.price))
              (listMin (bids_uncovered.map Bid.price)) 1 MP =
              (if |ipaStep theta FIT TOU (listMax (bids_uncovered.map Bid.price))
                    (listMin (bids_uncovered.map Bid.price)) MP - MP| < epsilon then some MP
               else ipaLoop theta epsilon FIT TOU (listMax (bids_uncovered.map Bid.price))
                 (listMin (bids_uncovered.map Bid.price)) 0
                 (ipaStep theta FIT TOU (listMax (bids_uncovered.map Bid.price))
                   (listMin (bids_uncovered.map Bid.price)) MP))
            from rfl]
          rw [if_pos h0])
  · have hp1hi : ipaStep theta FIT TOU (listMax (bids_uncovered.map Bid.price))
        (listMin (bids_uncovered.map Bid.price)) MP ≤ TOU :=
      ipaStep_le_hi _ _ _ _ _ _ hft
    have hp1lo : FIT ≤ ipaStep theta FIT TOU (listMax (bids_uncovered.map Bid.price))
        (listMin (bids_uncovered.map Bid.price)) MP :=
      lo_le_ipaStep _ _ _ _ _ _
    have hb : TOU - ipaStep theta FIT TOU (listMax (bids_uncovered.map Bid.price))
        (listMin (bids_uncovered.map Bid.price)) MP
        ≤ ((Nat.ceil ((TOU - FIT) / epsilon) : ℕ) : ℚ) * epsilon := by
      have h1 : (TOU - FIT) / epsilon ≤ ((Nat.ceil ((TOU - FIT) / epsilon) : ℕ) : ℚ) :=
        Nat.le_ceil _
      have h2 : TOU - FIT ≤ ((Nat.ceil ((TOU - FIT) / epsilon) : ℕ) : ℚ) * epsilon :=
        (div_le_iff₀ he).mp h1
      linarith
    obtain ⟨q, hq⟩ := ipaLoop_terminates_aux theta epsilon FIT TOU
      (listMax (bids_uncovered.map Bid.price)) (listMin (bids_uncovered.map Bid.price))
      ht he hmm hft (Nat.ceil ((TOU - FIT) / epsilon))
      (ipaStep theta FIT TOU (listMax (bids_uncovered.map Bid.price))
        (listMin (bids_uncovered.map Bid.price)) MP) hp1hi hb
    have hloop : ipaLoop theta epsilon FIT TOU (listMax (bids_uncovered.map Bid.price))
        (listMin (bids_uncovered.map Bid.price))
        (Nat.ceil ((TOU - FIT) / epsilon) + 1 + 1) MP = some q := by
      rw [show ipaLoop theta epsilon FIT TOU (listMax (bids_uncovered.map Bid.price))
          (listMin (bids_uncovered.map Bid.price))
          (Nat.ceil ((TOU - FIT) / epsilon) + 1 + 1) MP =
          (if |ipaStep theta FIT TOU (listMax (bids_uncovered.map Bid.price))
                (listMin (bids_uncovered.map Bid.price)) MP - MP| < epsilon then some MP
           else ipaLoop theta epsilon FIT TOU (listMax (bids_uncovered.map Bid.price))
             (listMin (bids_uncovered.map Bid.price)) (Nat.ceil ((TOU - FIT) / epsilon) + 1)
             (ipaStep theta FIT TOU (listMax (bids_uncovered.map Bid.price))
               (listMin (bids_uncovered.map Bid.price)) MP))
        from rfl]
      rw [if_neg h0]
      exact hq
    refine ⟨Nat.ceil ((TOU - FIT) / epsilon) + 1 + 1, q, hloop, ?_, ?_⟩
    · exact ipaLoop_some_stop theta epsilon FIT TOU (listMax (bids_uncovered.map Bid.price))
        (listMin (bids_uncovered.map Bid.price)) _ _ q hloop
    · exact iter_some_of_loop_some bids_uncovered trans theta epsilon MP FIT TOU _ q hloop

/-- A non-empty uncovered frame for the termination witness. -/
def ipaBids : List Bid := [⟨1, true, 2, 3/10⟩, ⟨2, false, 3, 1/10⟩]

/-- C9 (witness): the loop terminates on a concrete frame with
`θ = 1/2, ε = 1/100, MP = 1/5, FIT = 1/10, TOU = 1/4`. -/
theorem ipa_adjustment_loop_terminates_witness :
    ∃ (fuel : ℕ) (q : ℚ),
      ipaLoop (1/2) (1/100) (1/10) (1/4) (listMax (ipaBids.map Bid.price))
        (listMin (ipaBids.map Bid.price)) fuel (1/5) = some q
      ∧ |ipaStep (1/2) (1/10) (1/4) (listMax (ipaBids.map Bid.price))
          (listMin (ipaBids.map Bid.price)) q - q| < 1/100
      ∧ ∃ r, iterative_price_adjustment ipaBids [] (1/2) (1/100) (1/5) (1/10) (1/4) fuel
          = some r :=
  ipa_adjustment_loop_terminates ipaBids [] (1/2) (1/100) (1/5) (1/10) (1/4)
    (by decide) (by norm_num) (by norm_num) (by norm_num) (by norm_num)

end BMLEM
